import Mathlib

/-!
Shallow embedding of the kicad-component-importer S-expression engine
(src/kicad_sym.rs), the footprint-association step (src/importer.rs) and the
library-table updater (src/kicad_table.rs), together with proofs settling the
frozen claims about the specification.

Conventions of the embedding:
- Rust in-place mutation becomes explicit state passing (functions return the
  updated value).
- Fallible Rust functions returning Result become Except.
- The recursive-descent parser is embedded with an explicit fuel parameter so
  that it is structurally recursive; every recursive call consumes at least
  one input character, so the canonical fuel (two times the input length plus
  two) is always sufficient, and the lemmas below establish success at that
  fuel wherever a claim needs it.
- A Rust slice-index panic (out-of-bounds) is modelled as a distinguished
  error constructor, since a panic is an observable outcome distinct from the
  ordinary error returns.
-/

/-- Unicode White_Space property, as used by the Rust standard library
function on characters that the source calls for both tokenising and
quoting decisions. -/
def rustIsWhitespace (c : Char) : Bool :=
  c = '\t' || c = '\n' || c = '\u000B' || c = '\u000C' || c = '\r' || c = ' ' ||
  c = '\u0085' || c = '\u00A0' || c = '\u1680' ||
  ('\u2000' ≤ c && c ≤ '\u200A') ||
  c = '\u2028' || c = '\u2029' || c = '\u202F' || c = '\u205F' || c = '\u3000'

/-- The characters that terminate a bare atom and force quoting, from
needs_quotes and parse_bare_atom in src/kicad_sym.rs. -/
def isDelimChar (ch : Char) : Bool :=
  ch = '(' || ch = ')' || ch = '"' || ch = ';' || ch = '#'

/-- Atom from src/kicad_sym.rs: a leaf value plus the flag recording whether
the source form was quoted. -/
structure Atom where
  value : String
  quoted : Bool
deriving DecidableEq, Repr

/-- Sexp from src/kicad_sym.rs: atom or ordered list of children. -/
inductive Sexp where
  | atom : Atom → Sexp
  | list : List Sexp → Sexp

/-- Structural induction for Sexp with a membership hypothesis for list
children. -/
theorem Sexp.myInd (motive : Sexp → Prop)
    (hatom : ∀ a, motive (.atom a))
    (hlist : ∀ items, (∀ e ∈ items, motive e) → motive (.list items)) :
    ∀ e, motive e :=
  fun e =>
    Sexp.rec (motive_1 := motive) (motive_2 := fun l => ∀ x ∈ l, motive x)
      hatom (fun items ih => hlist items ih)
      (fun x hx => absurd hx (List.not_mem_nil x))
      (fun _ _ ihh iht x hx => by
        rcases List.mem_cons.mp hx with h1 | h2
        · exact h1 ▸ ihh
        · exact iht x h2)
      e

/-- needs_quotes from src/kicad_sym.rs. -/
def needsQuotes (value : String) : Bool :=
  value.isEmpty || value.data.any (fun ch => rustIsWhitespace ch || isDelimChar ch)

/-- Expansion of a single character under escape_atom from src/kicad_sym.rs. -/
def escapeChar (ch : Char) : List Char :=
  if ch = '\\' then ['\\', '\\']
  else if ch = '"' then ['\\', '"']
  else if ch = '\n' then ['\\', 'n']
  else if ch = '\r' then ['\\', 'r']
  else if ch = '\t' then ['\\', 't']
  else [ch]

/-- escape_atom from src/kicad_sym.rs. -/
def escapeAtom (value : String) : String :=
  String.mk (value.data.map escapeChar).flatten

/-- render_atom from src/kicad_sym.rs. -/
def renderAtom (a : Atom) : String :=
  if a.quoted || needsQuotes a.value then "\"" ++ escapeAtom a.value ++ "\""
  else a.value

/-- Normalisation performed by one print-and-reparse cycle: an atom that the
printer was forced to quote comes back with its quoted flag set; values and
list structure are untouched. -/
def canonAtom (a : Atom) : Atom :=
  ⟨a.value, a.quoted || needsQuotes a.value⟩

/-- Tree-wide version of canonAtom. -/
def canon : Sexp → Sexp
  | .atom a => .atom (canonAtom a)
  | .list items => .list (items.attach.map (fun x => canon x.1))
decreasing_by
  simp_wf
  have := List.sizeOf_lt_of_mem x.2
  omega

theorem canon_atom (a : Atom) : canon (.atom a) = .atom (canonAtom a) := by
  rw [canon]

theorem canon_list (items : List Sexp) :
    canon (.list items) = .list (items.map canon) := by
  rw [canon]
  congr 1
  exact List.attach_map_coe _ _

/-- Bool test for the all-atoms single-line layout of write_pretty. -/
def isAtomB : Sexp → Bool
  | .atom _ => true
  | .list _ => false

/-- Indentation produced by the for-loops in write_pretty: the indent unit
repeated n times. -/
def repeatStr (s : String) (n : Nat) : String :=
  match n with
  | 0 => ""
  | k + 1 => s ++ repeatStr s k

mutual

/-- write_pretty from src/kicad_sym.rs (building the output string by return
value instead of pushing into a mutable buffer). -/
def writePretty (e : Sexp) (ind : Nat) (istr : String) : String :=
  match e with
  | .atom a => renderAtom a
  | .list items => writeListP items ind istr

/-- List branch of write_pretty: empty list, single-line all-atom layout, or
multi-line layout. -/
def writeListP (items : List Sexp) (ind : Nat) (istr : String) : String :=
  match items with
  | [] => "()"
  | x :: xs =>
    if (x :: xs).all isAtomB then
      "(" ++ writePretty x ind istr ++ writeInline xs ind istr ++ ")"
    else
      "(" ++ writePretty x ind istr ++ writeMulti xs ind istr ++ "\n" ++
        repeatStr istr ind ++ ")"

/-- Space-separated remaining items of the single-line layout. -/
def writeInline (items : List Sexp) (ind : Nat) (istr : String) : String :=
  match items with
  | [] => ""
  | x :: xs => " " ++ writePretty x ind istr ++ writeInline xs ind istr

/-- Newline-and-indent prefixed remaining items of the multi-line layout. -/
def writeMulti (items : List Sexp) (ind : Nat) (istr : String) : String :=
  match items with
  | [] => ""
  | x :: xs =>
    "\n" ++ repeatStr istr (ind + 1) ++ writePretty x (ind + 1) istr ++
      writeMulti xs ind istr
end

/-- to_string_pretty_with_indent from src/kicad_sym.rs: print and append the
trailing newline. -/
def toStringPrettyWithIndent (e : Sexp) (istr : String) : String :=
  writePretty e 0 istr ++ "\n"

/-- to_string_pretty from src/kicad_sym.rs (tab indent unit). -/
def toStringPretty (e : Sexp) : String :=
  toStringPrettyWithIndent e "\t"

/-- KicadSymError from src/kicad_sym.rs: message plus optional position. -/
structure KicadSymError where
  message : String
  line : Option Nat
  column : Option Nat
deriving DecidableEq, Repr

/-- Display rendering of KicadSymError. -/
def KicadSymError.toDisplay (e : KicadSymError) : String :=
  match e.line, e.column with
  | some l, some c => e.message ++ " at " ++ toString l ++ ":" ++ toString c
  | _, _ => e.message

/-- Parser cursor from src/kicad_sym.rs: the characters not yet consumed plus
the 1-based line and column of the next character. -/
structure PState where
  input : List Char
  line : Nat
  column : Nat
deriving DecidableEq, Repr

/-- Positioned error, as Parser::error in src/kicad_sym.rs. -/
def PState.mkError (st : PState) (msg : String) : KicadSymError :=
  ⟨msg, some st.line, some st.column⟩

/-- skip_whitespace and skip_ws_and_comments from src/kicad_sym.rs, merged
into one structural recursion; the Bool is true while inside a comment that
runs to end of line. -/
def skipWsC : List Char → Nat → Nat → Bool → PState
  | [], l, c, _ => ⟨[], l, c⟩
  | ch :: rest, l, c, true =>
    if ch = '\n' then skipWsC rest (l + 1) 1 false
    else skipWsC rest l (c + 1) true
  | ch :: rest, l, c, false =>
    if rustIsWhitespace ch then
      (if ch = '\n' then skipWsC rest (l + 1) 1 false
       else skipWsC rest l (c + 1) false)
    else if ch = ';' || ch = '#' then skipWsC rest l (c + 1) true
    else ⟨ch :: rest, l, c⟩

/-- skip_ws_and_comments from src/kicad_sym.rs. -/
def skipWsAndComments (st : PState) : PState :=
  skipWsC st.input st.line st.column false

/-- Character-consuming loop of parse_bare_atom: returns the collected value
characters and the state at the first delimiter. -/
def parseBareAux : List Char → Nat → Nat → List Char × PState
  | [], l, c => ([], ⟨[], l, c⟩)
  | ch :: rest, l, c =>
    if rustIsWhitespace ch || isDelimChar ch then ([], ⟨ch :: rest, l, c⟩)
    else
      let r := parseBareAux rest l (c + 1)
      (ch :: r.1, r.2)

/-- parse_bare_atom from src/kicad_sym.rs. -/
def parseBareAtom (st : PState) : Except KicadSymError (Sexp × PState) :=
  match parseBareAux st.input st.line st.column with
  | ([], st2) => .error (st2.mkError "expected atom")
  | (c :: v, st2) => .ok (.atom ⟨String.mk (c :: v), false⟩, st2)

/-- Position update of Parser::next from src/kicad_sym.rs. -/
def advPosPair (ch : Char) (l c : Nat) : Nat × Nat :=
  if ch = '\n' then (l + 1, 1) else (l, c + 1)

/-- Escape-character interpretation inside parse_quoted_atom: the five named
escapes, any other escaped character passes through. -/
def unescapeChar (esc : Char) : Char :=
  match esc with
  | 'n' => '\n'
  | 'r' => '\r'
  | 't' => '\t'
  | '"' => '"'
  | '\\' => '\\'
  | _ => esc

/-- Body loop of parse_quoted_atom from src/kicad_sym.rs, entered after the
opening quote has been consumed; the Nat arguments are the current line and
column. -/
def parseQuotedBody : List Char → Nat → Nat → Except KicadSymError (List Char × PState)
  | [], l, c => .error ⟨"unterminated string", some l, some c⟩
  | ch :: rest, l, c =>
    let p := advPosPair ch l c
    if ch = '"' then .ok ([], ⟨rest, p.1, p.2⟩)
    else if ch = '\\' then
      match rest with
      | [] => .error ⟨"unterminated escape", some p.1, some p.2⟩
      | e :: rest2 =>
        let p2 := advPosPair e p.1 p.2
        match parseQuotedBody rest2 p2.1 p2.2 with
        | .error err => .error err
        | .ok (v, st) => .ok (unescapeChar e :: v, st)
    else
      match parseQuotedBody rest p.1 p.2 with
      | .error err => .error err
      | .ok (v, st) => .ok (ch :: v, st)

mutual

/-- parse_sexp from src/kicad_sym.rs; the fuel only bounds recursion depth
and two times the input length plus one always suffices. -/
def parseSexpF : Nat → PState → Except KicadSymError (Sexp × PState)
  | 0, _ => .error ⟨"parser fuel exhausted", none, none⟩
  | fuel + 1, st =>
    let st1 := skipWsAndComments st
    match st1.input with
    | '(' :: rest =>
      match parseListF fuel ⟨rest, st1.line, st1.column + 1⟩ [] with
      | .error e => .error e
      | .ok (items, st2) => .ok (.list items, st2)
    | '"' :: rest =>
      match parseQuotedBody rest st1.line (st1.column + 1) with
      | .error e => .error e
      | .ok (v, st2) => .ok (.atom ⟨String.mk v, true⟩, st2)
    | ')' :: _ => .error (st1.mkError "unexpected close paren")
    | [] => .error (st1.mkError "unexpected end of input")
    | _ :: _ => parseBareAtom st1

/-- Element loop of parse_list from src/kicad_sym.rs, entered after the
opening parenthesis has been consumed. -/
def parseListF : Nat → PState → List Sexp → Except KicadSymError (List Sexp × PState)
  | 0, _, _ => .error ⟨"parser fuel exhausted", none, none⟩
  | fuel + 1, st, acc =>
    let st1 := skipWsAndComments st
    match st1.input with
    | ')' :: rest => .ok (acc, ⟨rest, st1.line, st1.column + 1⟩)
    | [] => .error (st1.mkError "unterminated list")
    | _ :: _ =>
      match parseSexpF fuel st1 with
      | .error e => .error e
      | .ok (x, st2) => parseListF fuel st2 (acc ++ [x])
end

/-- Top-level loop of Parser::parse_all from src/kicad_sym.rs. -/
def parseAllF : Nat → PState → List Sexp → Except KicadSymError (List Sexp)
  | 0, _, _ => .error ⟨"parser fuel exhausted", none, none⟩
  | fuel + 1, st, acc =>
    let st1 := skipWsAndComments st
    match st1.input with
    | [] => .ok acc
    | _ :: _ =>
      match parseSexpF fuel st1 with
      | .error e => .error e
      | .ok (x, st2) => parseAllF fuel st2 (acc ++ [x])

/-- parse_sexps from src/kicad_sym.rs: run parse_all from line 1, column 1.
The canonical fuel is always sufficient because every parser step consumes at
least one character. -/
def parseSexps (input : String) : Except KicadSymError (List Sexp) :=
  parseAllF (2 * input.data.length + 2) ⟨input.data, 1, 1⟩ []

/-- parse_one from src/kicad_sym.rs: exactly one top-level form. -/
def parseOne (input : String) : Except KicadSymError Sexp :=
  match parseSexps input with
  | .error e => .error e
  | .ok [e] => .ok e
  | .ok _ => .error ⟨"expected a single top-level S-expression", none, none⟩

/-- atom_value from src/kicad_sym.rs. -/
def atomValue : Sexp → Option String
  | .atom a => some a.value
  | .list _ => none

/-- symbol_name from src/kicad_sym.rs: a list of length at least two headed
by the atom symbol; the name is the second element's atom value. -/
def symbolName : Sexp → Option String
  | .list (x :: y :: _) =>
    if atomValue x = some "symbol" then atomValue y else none
  | _ => none

/-- property_value (the free function) from src/kicad_sym.rs: a property
child of length at least three whose second element equals the queried name
yields its third element's atom value. -/
def propertyValueOf (sexp : Sexp) (name : String) : Option String :=
  match sexp with
  | .list (k :: n :: v :: _) =>
    if atomValue k = some "property" then
      (if atomValue n = some name then atomValue v else none)
    else none
  | _ => none

/-- First-match scan of Symbol::property_value over the children. -/
def firstPropertyValue : List Sexp → String → Option String
  | [], _ => none
  | item :: rest, name =>
    match propertyValueOf item name with
    | some v => some v
    | none => firstPropertyValue rest name

/-- is_property_list from src/kicad_sym.rs. -/
def isPropertyList (items : List Sexp) : Bool :=
  match items with
  | [] => false
  | k :: _ => atomValue k = some "property"

/-- KSymbol from src/kicad_sym.rs: the cached name and the underlying tree. -/
structure KSymbol where
  name : String
  sexp : Sexp

/-- Symbol::from_sexp from src/kicad_sym.rs. -/
def KSymbol.fromSexp (sexp : Sexp) : Except KicadSymError KSymbol :=
  match symbolName sexp with
  | some name => .ok ⟨name, sexp⟩
  | none => .error ⟨"symbol must be a list like (symbol <name> ...)", none, none⟩

/-- Symbol::parse from src/kicad_sym.rs. -/
def KSymbol.parse (input : String) : Except KicadSymError KSymbol :=
  match parseSexps input with
  | .error e => .error e
  | .ok [e] => KSymbol.fromSexp e
  | .ok _ => .error ⟨"expected a single top-level S-expression for symbol", none, none⟩

/-- Symbol::property_value from src/kicad_sym.rs. -/
def KSymbol.propertyValue (s : KSymbol) (name : String) : Option String :=
  match s.sexp with
  | .list items => firstPropertyValue items name
  | .atom _ => none

/-- In-place update of the first matching property child, the scan of
Symbol::set_property_value: some of the updated children when a match with at
least three elements was found, none otherwise. -/
def setPropertyInItems : List Sexp → String → String → Option (List Sexp)
  | [], _, _ => none
  | item :: rest, name, value =>
    match item with
    | .list (k :: n :: _ :: tail) =>
      if atomValue k = some "property" then
        (if atomValue n = some name then
          some (Sexp.list (k :: n :: .atom ⟨value, false⟩ :: tail) :: rest)
        else
          match setPropertyInItems rest name value with
          | some rest2 => some (item :: rest2)
          | none => none)
      else
        match setPropertyInItems rest name value with
        | some rest2 => some (item :: rest2)
        | none => none
    | _ =>
      match setPropertyInItems rest name value with
      | some rest2 => some (item :: rest2)
      | none => none

/-- Symbol::set_property_value from src/kicad_sym.rs: the Bool is the Rust
return value, the KSymbol is the (possibly) updated receiver. -/
def KSymbol.setPropertyValue (s : KSymbol) (name value : String) : Bool × KSymbol :=
  match s.sexp with
  | .list items =>
    (match setPropertyInItems items name value with
     | some items2 => (true, ⟨s.name, .list items2⟩)
     | none => (false, s))
  | .atom _ => (false, s)

/-- The find_map in set_or_add_property: the children of the first property
shaped child, used as a template. -/
def firstPropertyTemplate : List Sexp → Option (List Sexp)
  | [] => none
  | item :: rest =>
    match item with
    | .list its => if isPropertyList its then some its else firstPropertyTemplate rest
    | .atom _ => firstPropertyTemplate rest

/-- Slot overwrite-or-push used twice in set_or_add_property: overwrite index
idx when it exists, push at the end otherwise. -/
def setSlotOrPush (items : List Sexp) (idx : Nat) (x : Sexp) : List Sexp :=
  if idx < items.length then items.set idx x else items ++ [x]

/-- The minimal three-element property synthesized by set_or_add_property
when the symbol has no property child at all. -/
def minimalProperty (name value : String) : Sexp :=
  .list [.atom ⟨"property", false⟩, .atom ⟨name, true⟩, .atom ⟨value, false⟩]

/-- Symbol::set_or_add_property from src/kicad_sym.rs. -/
def KSymbol.setOrAddProperty (s : KSymbol) (name value : String) : KSymbol :=
  match s.setPropertyValue name value with
  | (true, s2) => s2
  | (false, _) =>
    match s.sexp with
    | .list items =>
      (match firstPropertyTemplate items with
       | some template =>
         let n2 := setSlotOrPush (setSlotOrPush template 1 (.atom ⟨name, true⟩)) 2
           (.atom ⟨value, false⟩)
         ⟨s.name, .list (items ++ [.list n2])⟩
       | none => ⟨s.name, .list (items ++ [minimalProperty name value])⟩)
    | .atom _ => s

/-- AddPolicy from src/kicad_sym.rs. -/
inductive AddPolicy where
  | errorOnConflict
  | replaceExisting
  | skipExisting
deriving DecidableEq, Repr

/-- KicadSymbolLib from src/kicad_sym.rs. -/
structure KicadSymbolLib where
  root : Sexp

/-- ensure_root from src/kicad_sym.rs: the root must be a non-empty list
whose first element is the atom kicad_symbol_lib. -/
def ensureRoot (sexp : Sexp) : Except KicadSymError Unit :=
  match sexp with
  | .atom _ => .error ⟨"library root must be a list expression", none, none⟩
  | .list [] => .error ⟨"library root list is empty", none, none⟩
  | .list (first :: _) =>
    if atomValue first = some "kicad_symbol_lib" then .ok ()
    else .error ⟨"expected root list to start with kicad_symbol_lib", none, none⟩

/-- KicadSymbolLib::parse from src/kicad_sym.rs. -/
def KicadSymbolLib.parse (input : String) : Except KicadSymError KicadSymbolLib :=
  match parseSexps input with
  | .error e => .error e
  | .ok [root] =>
    (match ensureRoot root with
     | .ok _ => .ok ⟨root⟩
     | .error e => .error e)
  | .ok _ => .error ⟨"expected a single top-level S-expression for library", none, none⟩

/-- Collection loop of KicadSymbolLib::symbols over the children after the
root keyword. -/
def collectSymbols : List Sexp → Except KicadSymError (List KSymbol)
  | [] => .ok []
  | item :: rest =>
    if (symbolName item).isSome then
      match KSymbol.fromSexp item with
      | .error e => .error e
      | .ok s =>
        match collectSymbols rest with
        | .ok ss => .ok (s :: ss)
        | .error e => .error e
    else collectSymbols rest

/-- KicadSymbolLib::symbols from src/kicad_sym.rs. -/
def KicadSymbolLib.symbols (lib : KicadSymbolLib) : Except KicadSymError (List KSymbol) :=
  match lib.root with
  | .list items => collectSymbols (items.drop 1)
  | .atom _ => .error ⟨"library root must be a list expression", none, none⟩

/-- First index at or after position start whose child is a symbol of the
given name; models the enumerate().skip(1) search in add_symbol. -/
def findSymbolIdx : List Sexp → String → Nat → Option Nat
  | [], _, _ => none
  | item :: rest, name, i =>
    if symbolName item = some name then some i
    else findSymbolIdx rest name (i + 1)

/-- KicadSymbolLib::add_symbol from src/kicad_sym.rs. -/
def KicadSymbolLib.addSymbol (lib : KicadSymbolLib) (symbol : KSymbol)
    (policy : AddPolicy) : Except KicadSymError KicadSymbolLib :=
  match ensureRoot lib.root with
  | .error e => .error e
  | .ok _ =>
    match lib.root with
    | .list items =>
      let existing : Option Nat :=
        match items with
        | [] => none
        | _ :: rest => findSymbolIdx rest symbol.name 1
      (match existing, policy with
       | some _, .skipExisting => .ok lib
       | some _, .errorOnConflict =>
         .error ⟨"symbol already exists: " ++ symbol.name, none, none⟩
       | some idx, .replaceExisting => .ok ⟨.list (items.set idx symbol.sexp)⟩
       | none, _ => .ok ⟨.list (items ++ [symbol.sexp])⟩)
    | .atom _ => .error ⟨"library root must be a list expression", none, none⟩

/-- KicadSymbolLib::to_string_pretty from src/kicad_sym.rs. -/
def KicadSymbolLib.toStringPretty (lib : KicadSymbolLib) : String :=
  toStringPrettyWithIndent lib.root "\t"

/-- Unicode trim of both ends, as the Rust str::trim used by
select_footprint_for_symbol. -/
def rustTrim (s : String) : String :=
  String.mk (((s.data.dropWhile rustIsWhitespace).reverse.dropWhile rustIsWhitespace).reverse)

/-- Split at the last colon, as str::rsplit_once used by
footprint_name_from_value: some (before, after) when a colon is present. -/
def rsplitOnceColon : List Char → Option (List Char × List Char)
  | [] => none
  | c :: rest =>
    match rsplitOnceColon rest with
    | some (before, after) => some (c :: before, after)
    | none => if c = ':' then some ([], rest) else none

/-- footprint_name_from_value from src/importer.rs. -/
def footprintNameFromValue (value : String) : Option String :=
  if value = "" then none
  else
    match rsplitOnceColon value.data with
    | some (_, after) => some (String.mk after)
    | none => some value

/-- The importer error cases that the association step can produce
(src/importer.rs). -/
inductive ImportError where
  | association : String → ImportError
deriving DecidableEq, Repr

/-- select_footprint_for_symbol from src/importer.rs. The discovered
footprints are given as their name list in discovery order: the Rust
footprint_count is its length and the by-name map contains exactly its
members. -/
def selectFootprintForSymbol (symbol : KSymbol) (footprints : List String) :
    Except ImportError String :=
  let step1 : Option String :=
    match symbol.propertyValue "Footprint" with
    | some value =>
      let trimmed := rustTrim value
      if trimmed ≠ "" then
        match footprintNameFromValue trimmed with
        | some name => if footprints.contains name then some name else none
        | none => none
      else none
    | none => none
  match step1 with
  | some name => .ok name
  | none =>
    match footprints with
    | [single] => .ok single
    | _ =>
      if footprints.contains symbol.name then .ok symbol.name
      else .error (.association ("unable to choose footprint for symbol " ++ symbol.name))

/-- Modelled from the claim's words for comparison with the source: the same
selection procedure but applied to the raw property value, without the
whitespace trimming that the source performs. -/
def claimSelectFootprint (symbol : KSymbol) (footprints : List String) :
    Except ImportError String :=
  let step1 : Option String :=
    match symbol.propertyValue "Footprint" with
    | some value =>
      if value ≠ "" then
        match footprintNameFromValue value with
        | some name => if footprints.contains name then some name else none
        | none => none
      else none
    | none => none
  match step1 with
  | some name => .ok name
  | none =>
    match footprints with
    | [single] => .ok single
    | _ =>
      if footprints.contains symbol.name then .ok symbol.name
      else .error (.association ("unable to choose footprint for symbol " ++ symbol.name))

/-- TableKind from src/kicad_table.rs. -/
inductive TableKind where
  | symbol
  | footprint
deriving DecidableEq, Repr

/-- TableKind::root_name from src/kicad_table.rs. -/
def TableKind.rootName : TableKind → String
  | .symbol => "sym_lib_table"
  | .footprint => "fp_lib_table"

/-- TableError from src/kicad_table.rs, plus a distinguished constructor
modelling a Rust index-out-of-bounds panic, which is an observable outcome
distinct from the ordinary error returns (the Io constructor is omitted
because the filesystem is abstracted away). -/
inductive TableError where
  | parseErr : String → TableError
  | invalid : String → TableError
  | panicked : String → TableError
deriving DecidableEq, Repr

/-- Scan of lib_name over the children after the head, from
src/kicad_table.rs: the first list child of length at least two headed by
the atom name decides the result. -/
def findNameIn : List Sexp → Option String
  | [] => none
  | item :: rest =>
    match item with
    | .list (k :: v :: _) =>
      if atomValue k = some "name" then atomValue v else findNameIn rest
    | _ => findNameIn rest

/-- lib_name from src/kicad_table.rs. The source indexes items[0] without an
emptiness check, so an empty list child is a panic, modelled here as the
panicked error. -/
def libName : Sexp → Except TableError (Option String)
  | .atom _ => .ok none
  | .list [] => .error (.panicked "index out of bounds: lib_name indexes items[0] of an empty list")
  | .list (first :: rest) =>
    if atomValue first = some "lib" then .ok (findNameIn rest) else .ok none

/-- matches_root from src/kicad_table.rs. -/
def matchesRoot (sexp : Sexp) (root : String) : Bool :=
  match sexp with
  | .list (first :: _) => atomValue first = some root
  | _ => false

/-- default_table from src/kicad_table.rs. -/
def defaultTable (kind : TableKind) : Sexp :=
  .list [.atom ⟨kind.rootName, false⟩,
    .list [.atom ⟨"version", false⟩, .atom ⟨"7", false⟩]]

/-- The search loop of ensure_version over the children after the head: is
there a list child of length at least two headed by the atom version. -/
def hasVersionEntry : List Sexp → Bool
  | [] => false
  | item :: rest =>
    match item with
    | .list (k :: _ :: _) =>
      if atomValue k = some "version" then true else hasVersionEntry rest
    | _ => hasVersionEntry rest

/-- The (version 7) entry inserted by ensure_version and default_table. -/
def versionEntry : Sexp :=
  .list [.atom ⟨"version", false⟩, .atom ⟨"7", false⟩]

/-- ensure_version from src/kicad_table.rs; inserting at index 1 of an empty
vector would panic in Rust, modelled by the panicked error. -/
def ensureVersion (table : Sexp) : Except TableError Sexp :=
  match table with
  | .atom _ => .error (.invalid "expected list")
  | .list items =>
    if hasVersionEntry (items.drop 1) then .ok (.list items)
    else
      match items with
      | [] => .error (.panicked "insert index out of bounds")
      | first :: rest => .ok (.list (first :: versionEntry :: rest))

/-- The two-element (key value) child pushed by set_child_value when the key
is absent. -/
def pairEntry (key value : String) : Sexp :=
  .list [.atom ⟨key, false⟩, .atom ⟨value, true⟩]

/-- Scan of set_child_value over the children after the head: replace the
second element of the first list child of length at least two headed by the
key, none when no such child exists. -/
def setChildValueAux : List Sexp → String → String → Option (List Sexp)
  | [], _, _ => none
  | item :: rest, key, value =>
    match item with
    | .list (k :: _ :: tail) =>
      if atomValue k = some key then
        some (Sexp.list (k :: .atom ⟨value, true⟩ :: tail) :: rest)
      else
        match setChildValueAux rest key value with
        | some rest2 => some (item :: rest2)
        | none => none
    | _ =>
      match setChildValueAux rest key value with
      | some rest2 => some (item :: rest2)
      | none => none

/-- set_child_value from src/kicad_table.rs: the scan skips the head, and on
no match a fresh (key value) pair is pushed at the end. -/
def setChildValue (items : List Sexp) (key value : String) : List Sexp :=
  match items with
  | [] => [pairEntry key value]
  | first :: rest =>
    match setChildValueAux rest key value with
    | some rest2 => first :: rest2
    | none => (first :: rest) ++ [pairEntry key value]

/-- update_lib from src/kicad_table.rs: normalise the five fields. -/
def updateLib (sexp : Sexp) (name uri : String) : Sexp :=
  match sexp with
  | .list items =>
    .list (setChildValue (setChildValue (setChildValue (setChildValue
      (setChildValue items "name" name) "type" "KiCad") "uri" uri)
      "options" "") "descr" "")
  | .atom _ => sexp

/-- build_lib_entry from src/kicad_table.rs. -/
def buildLibEntry (name uri : String) : Sexp :=
  .list [.atom ⟨"lib", false⟩,
    .list [.atom ⟨"name", false⟩, .atom ⟨name, true⟩],
    .list [.atom ⟨"type", false⟩, .atom ⟨"KiCad", true⟩],
    .list [.atom ⟨"uri", false⟩, .atom ⟨uri, true⟩],
    .list [.atom ⟨"options", false⟩, .atom ⟨"", true⟩],
    .list [.atom ⟨"descr", false⟩, .atom ⟨"", true⟩]]

/-- Scan of ensure_lib_entry over all root children: update the first child
whose lib_name equals the target name, propagating the lib_name panic. -/
def ensureLibEntryAux : List Sexp → String → String → Except TableError (Option (List Sexp))
  | [], _, _ => .ok none
  | item :: rest, name, uri =>
    match libName item with
    | .error e => .error e
    | .ok r =>
      if r = some name then .ok (some (updateLib item name uri :: rest))
      else
        match ensureLibEntryAux rest name uri with
        | .error e => .error e
        | .ok (some rest2) => .ok (some (item :: rest2))
        | .ok none => .ok none

/-- ensure_lib_entry from src/kicad_table.rs; a non-list table returns
without changes, no match appends a freshly built entry. -/
def ensureLibEntry (table : Sexp) (name uri : String) : Except TableError Sexp :=
  match table with
  | .atom _ => .ok table
  | .list items =>
    match ensureLibEntryAux items name uri with
    | .error e => .error e
    | .ok (some items2) => .ok (.list items2)
    | .ok none => .ok (.list (items ++ [buildLibEntry name uri]))

/-- parse_table from src/kicad_table.rs. -/
def parseTable (input : String) (kind : TableKind) : Except TableError Sexp :=
  match parseOne input with
  | .error e => .error (.parseErr e.toDisplay)
  | .ok sexp =>
    if matchesRoot sexp kind.rootName then .ok sexp
    else .error (.invalid ("expected root list " ++ kind.rootName))

/-- ensure_table from src/kicad_table.rs with the filesystem abstracted:
existing is the current table file content when the file exists, the
returned string is what is written back; the library name and uri have
already been derived from the paths exactly as in the source. -/
def ensureTableText (kind : TableKind) (existing : Option String)
    (name uri : String) : Except TableError String :=
  match (match existing with
         | some content => parseTable content kind
         | none => .ok (defaultTable kind)) with
  | .error e => .error e
  | .ok table =>
    match ensureVersion table with
    | .error e => .error e
    | .ok table1 =>
      match ensureLibEntry table1 name uri with
      | .error e => .error e
      | .ok table2 => .ok (toStringPrettyWithIndent table2 "  ")

/-- Unix-style absolute-path test, modelling Path::is_absolute for the
string paths used by make_uri. -/
def pathIsAbsolute (p : String) : Bool :=
  match p.data with
  | '/' :: _ => true
  | _ => false

/-- Models Path::strip_prefix on Unix-style path strings: succeeds when the
root is a leading component sequence of the path, returning the remainder. -/
def stripPathRoot (p root : String) : Option String :=
  if p = root then some ""
  else if (root ++ "/").data.isPrefixOf p.data then
    some (String.mk (p.data.drop (root ++ "/").data.length))
  else none

/-- The trim_start_matches removal of leading ./ sequences in make_uri. -/
def trimDotSlashAux : List Char → List Char
  | '.' :: '/' :: rest => trimDotSlashAux rest
  | cs => cs

/-- make_uri from src/kicad_table.rs: relative paths and absolute paths
inside the project root get the placeholder prefix, other absolute paths are
embedded verbatim. -/
def makeUri (path projectRoot : String) : String :=
  let relative : Option String :=
    if pathIsAbsolute path then stripPathRoot path projectRoot else some path
  match relative with
  | some rel => "${KIPRJMOD}/" ++ String.mk (trimDotSlashAux rel.data)
  | none => path

/-- Modelled from the claim's words for comparison with the source: the
placeholder is used exactly when the path is absolute and inside the project
root, and the path is embedded verbatim in every other case. -/
def claimMakeUri (path projectRoot : String) : String :=
  match (if pathIsAbsolute path then stripPathRoot path projectRoot else none) with
  | some rel => "${KIPRJMOD}/" ++ String.mk (trimDotSlashAux rel.data)
  | none => path

/-! Helper lemmas about the first-match scans of the symbol model. -/

theorem findSymbolIdx_none_iff (l : List Sexp) (name : String) (i : Nat) :
    findSymbolIdx l name i = none ↔ ∀ e ∈ l, symbolName e ≠ some name := by
  induction l generalizing i with
  | nil => simp [findSymbolIdx]
  | cons x xs ih =>
    by_cases hx : symbolName x = some name
    · simp [findSymbolIdx, hx]
    · simp [findSymbolIdx, hx, ih]

theorem findSymbolIdx_some (l : List Sexp) (name : String) (i idx : Nat)
    (h : findSymbolIdx l name i = some idx) :
    ∃ j e, idx = i + j ∧ l.get? j = some e ∧ symbolName e = some name ∧
      ∀ k e', k < j → l.get? k = some e' → symbolName e' ≠ some name := by
  induction l generalizing i idx with
  | nil => simp [findSymbolIdx] at h
  | cons x xs ih =>
    by_cases hx : symbolName x = some name
    · simp [findSymbolIdx, hx] at h
      exact ⟨0, x, by omega, rfl, hx, by omega⟩
    · simp [findSymbolIdx, hx] at h
      obtain ⟨j, e, hidx, hget, hname, hearlier⟩ := ih (i + 1) idx h
      refine ⟨j + 1, e, by omega, by simpa using hget, hname, ?_⟩
      intro k e' hk hget'
      match k with
      | 0 =>
        simp at hget'
        exact hget' ▸ hx
      | k' + 1 =>
        exact hearlier k' e' (by omega) (by simpa using hget')

theorem propMatchCases (x : Sexp) (key : String) :
    (∃ k n v tail, x = Sexp.list (k :: n :: v :: tail) ∧
      atomValue k = some "property" ∧ atomValue n = some key) ∨
    (∀ k n v tail, x = Sexp.list (k :: n :: v :: tail) →
      atomValue k = some "property" → atomValue n ≠ some key) := by
  rcases x with a | ls
  · right
    intro k n v tail h
    exact absurd h (by simp)
  · rcases ls with _ | ⟨k, _ | ⟨n, _ | ⟨v, tail⟩⟩⟩
    · right
      intro k n v tail h
      exact absurd h (by simp)
    · right
      intro k' n' v' tail' h
      exact absurd h (by simp)
    · right
      intro k' n' v' tail' h
      exact absurd h (by simp)
    · by_cases hk : atomValue k = some "property"
      · by_cases hn : atomValue n = some key
        · exact Or.inl ⟨k, n, v, tail, rfl, hk, hn⟩
        · right
          intro k' n' v' tail' h
          obtain ⟨h1, h2, h3, h4⟩ := by simpa using h
          subst h1; subst h2
          intro _
          exact hn
      · right
        intro k' n' v' tail' h hk'
        obtain ⟨h1, h2, h3, h4⟩ := by simpa using h
        subst h1
        exact absurd hk' hk

theorem noPropMatch_propertyValueOf (x : Sexp) (key : String)
    (hx : ∀ k n v tail, x = Sexp.list (k :: n :: v :: tail) →
      atomValue k = some "property" → atomValue n ≠ some key) :
    propertyValueOf x key = none := by
  rcases x with a | ls
  · simp [propertyValueOf]
  · rcases ls with _ | ⟨k, _ | ⟨n, _ | ⟨v, tail⟩⟩⟩
    · simp [propertyValueOf]
    · simp [propertyValueOf]
    · simp [propertyValueOf]
    · have := hx k n v tail rfl
      simp only [propertyValueOf]
      by_cases hk : atomValue k = some "property"
      · simp [hk, this hk]
      · simp [hk]

theorem spii_cons_nomatch (x : Sexp) (xs : List Sexp) (key value : String)
    (hx : ∀ k n v tail, x = Sexp.list (k :: n :: v :: tail) →
      atomValue k = some "property" → atomValue n ≠ some key) :
    setPropertyInItems (x :: xs) key value =
      match setPropertyInItems xs key value with
      | some r => some (x :: r)
      | none => none := by
  rcases x with a | ls
  · simp [setPropertyInItems]
  · rcases ls with _ | ⟨k, _ | ⟨n, _ | ⟨v, tail⟩⟩⟩
    · simp [setPropertyInItems]
    · simp [setPropertyInItems]
    · simp [setPropertyInItems]
    · have := hx k n v tail rfl
      simp only [setPropertyInItems]
      by_cases hk : atomValue k = some "property"
      · simp [hk, this hk]
      · simp [hk]

theorem spii_cons_match (k n v : Sexp) (tail xs : List Sexp) (key value : String)
    (hk : atomValue k = some "property") (hn : atomValue n = some key) :
    setPropertyInItems (Sexp.list (k :: n :: v :: tail) :: xs) key value =
      some (Sexp.list (k :: n :: .atom ⟨value, false⟩ :: tail) :: xs) := by
  simp [setPropertyInItems, hk, hn]

theorem setPropertyInItems_none (items : List Sexp) (key value : String)
    (h : setPropertyInItems items key value = none) :
    ∀ e ∈ items, propertyValueOf e key = none := by
  induction items with
  | nil => simp
  | cons x xs ih =>
    rcases propMatchCases x key with ⟨k, n, v, tail, rfl, hk, hn⟩ | hno
    · rw [spii_cons_match k n v tail xs key value hk hn] at h
      cases h
    · rw [spii_cons_nomatch x xs key value hno] at h
      intro e he
      rcases List.mem_cons.mp he with rfl | hmem
      · exact noPropMatch_propertyValueOf e key hno
      · cases heq : setPropertyInItems xs key value with
        | none => exact ih heq e hmem
        | some r => rw [heq] at h; cases h

theorem setPropertyInItems_some (items : List Sexp) (key value : String)
    (items2 : List Sexp) (h : setPropertyInItems items key value = some items2) :
    ∃ pre k n v0 tail post,
      items = pre ++ Sexp.list (k :: n :: v0 :: tail) :: post ∧
      atomValue k = some "property" ∧ atomValue n = some key ∧
      (∀ e ∈ pre, propertyValueOf e key = none) ∧
      items2 = pre ++ Sexp.list (k :: n :: .atom ⟨value, false⟩ :: tail) :: post := by
  induction items generalizing items2 with
  | nil => simp [setPropertyInItems] at h
  | cons x xs ih =>
    rcases propMatchCases x key with ⟨k, n, v, tail, rfl, hk, hn⟩ | hno
    · rw [spii_cons_match k n v tail xs key value hk hn] at h
      refine ⟨[], k, n, v, tail, xs, by simp, hk, hn, by simp, ?_⟩
      simpa using h.symm
    · rw [spii_cons_nomatch x xs key value hno] at h
      cases heq : setPropertyInItems xs key value with
      | none => rw [heq] at h; cases h
      | some r =>
        rw [heq] at h
        obtain ⟨pre, k, n, v0, tail, post, h1, h2, h3, h4, h5⟩ := ih r heq
        refine ⟨x :: pre, k, n, v0, tail, post, by simp [h1], h2, h3, ?_, ?_⟩
        · intro e he
          rcases List.mem_cons.mp he with rfl | hmem
          · exact noPropMatch_propertyValueOf e key hno
          · exact h4 e hmem
        · cases h
          simp [h5]

theorem firstPropertyValue_append_left_none (l1 l2 : List Sexp) (key : String)
    (h : ∀ e ∈ l1, propertyValueOf e key = none) :
    firstPropertyValue (l1 ++ l2) key = firstPropertyValue l2 key := by
  induction l1 with
  | nil => simp
  | cons x xs ih =>
    have hx := h x (by simp)
    simp only [List.cons_append, firstPropertyValue, hx]
    exact ih (fun e he => h e (by simp [he]))

theorem isPropertyList_true_iff (its : List Sexp) :
    isPropertyList its = true ↔
      ∃ k t, its = k :: t ∧ atomValue k = some "property" := by
  cases its with
  | nil => simp [isPropertyList]
  | cons k t =>
    simp only [isPropertyList]
    constructor
    · intro h
      exact ⟨k, t, rfl, by simpa using h⟩
    · rintro ⟨k', t', heq, hk⟩
      obtain ⟨h1, h2⟩ := by simpa using heq
      subst h1
      simpa using hk

theorem firstPropertyTemplate_some (items : List Sexp) (tmpl : List Sexp)
    (h : firstPropertyTemplate items = some tmpl) :
    ∃ t0 t2, tmpl = t0 :: t2 ∧ atomValue t0 = some "property" := by
  induction items with
  | nil => simp [firstPropertyTemplate] at h
  | cons x xs ih =>
    rcases x with a | its
    · exact ih (by simpa [firstPropertyTemplate] using h)
    · by_cases hp : isPropertyList its = true
      · simp only [firstPropertyTemplate, hp, if_true] at h
        obtain ⟨k, t, rfl, hk⟩ := (isPropertyList_true_iff its).mp hp
        cases h
        exact ⟨k, t, rfl, hk⟩
      · simp only [firstPropertyTemplate, hp] at h
        exact ih (by simpa using h)

theorem setSlotOrPush_one_two (t0 : Sexp) (t2 : List Sexp) (a b : Sexp) :
    setSlotOrPush (setSlotOrPush (t0 :: t2) 1 a) 2 b =
      t0 :: a :: b :: t2.drop 2 := by
  rcases t2 with _ | ⟨u, _ | ⟨v, t3⟩⟩ <;>
    simp [setSlotOrPush, List.set]

/-- C5: set_or_add_property is total, overwrites the third element of the
first matching property child in place, otherwise appends a property child
built from the first property-shaped template (second and third slots
replaced, trailing fields preserved) or the minimal three-element property,
and afterwards property_value of the key returns the given value. -/
theorem c5_set_or_add_property (s : KSymbol) (items : List Sexp) (key value : String)
    (h : s.sexp = .list items) :
    (s.setOrAddProperty key value).propertyValue key = some value ∧
    (∀ items2, setPropertyInItems items key value = some items2 →
      (s.setOrAddProperty key value).sexp = .list items2 ∧
      ∃ pre k n v0 tail post,
        items = pre ++ Sexp.list (k :: n :: v0 :: tail) :: post ∧
        atomValue k = some "property" ∧ atomValue n = some key ∧
        (∀ e ∈ pre, propertyValueOf e key = none) ∧
        items2 = pre ++ Sexp.list (k :: n :: .atom ⟨value, false⟩ :: tail) :: post) ∧
    (setPropertyInItems items key value = none →
      (∀ tmpl, firstPropertyTemplate items = some tmpl →
        (s.setOrAddProperty key value).sexp =
          .list (items ++ [.list (setSlotOrPush (setSlotOrPush tmpl 1
            (.atom ⟨key, true⟩)) 2 (.atom ⟨value, false⟩))])) ∧
      (firstPropertyTemplate items = none →
        (s.setOrAddProperty key value).sexp =
          .list (items ++ [minimalProperty key value]))) := by
  have hset : s.setPropertyValue key value =
      match setPropertyInItems items key value with
      | some items2 => (true, ⟨s.name, .list items2⟩)
      | none => (false, s) := by
    simp [KSymbol.setPropertyValue, h]
  cases hspi : setPropertyInItems items key value with
  | some items2 =>
    have hres : s.setOrAddProperty key value = ⟨s.name, .list items2⟩ := by
      simp [KSymbol.setOrAddProperty, hset, hspi]
    obtain ⟨pre, k, n, v0, tail, post, h1, h2, h3, h4, h5⟩ :=
      setPropertyInItems_some items key value items2 hspi
    refine ⟨?_, ?_, ?_⟩
    · rw [hres]
      simp only [KSymbol.propertyValue]
      rw [h5, firstPropertyValue_append_left_none _ _ _ h4]
      simp only [firstPropertyValue, propertyValueOf, h2, h3]
      simp [atomValue]
    · intro items2' hspi'
      cases hspi'
      exact ⟨by rw [hres], pre, k, n, v0, tail, post, h1, h2, h3, h4, h5⟩
    · intro hnone
      cases hnone
  | none =>
    have hall := setPropertyInItems_none items key value hspi
    refine ⟨?_, ?_, ?_⟩
    · cases htm : firstPropertyTemplate items with
      | some tmpl =>
        have hres : s.setOrAddProperty key value =
            ⟨s.name, .list (items ++ [.list (setSlotOrPush (setSlotOrPush tmpl 1
              (.atom ⟨key, true⟩)) 2 (.atom ⟨value, false⟩))])⟩ := by
          simp [KSymbol.setOrAddProperty, hset, hspi, h, htm]
        obtain ⟨t0, t2, rfl, ht0⟩ := firstPropertyTemplate_some items tmpl htm
        rw [hres]
        simp only [KSymbol.propertyValue]
        rw [firstPropertyValue_append_left_none _ _ _ hall]
        rw [setSlotOrPush_one_two]
        simp only [firstPropertyValue, propertyValueOf, ht0]
        simp [atomValue]
      | none =>
        have hres : s.setOrAddProperty key value =
            ⟨s.name, .list (items ++ [minimalProperty key value])⟩ := by
          simp [KSymbol.setOrAddProperty, hset, hspi, h, htm]
        rw [hres]
        simp only [KSymbol.propertyValue]
        rw [firstPropertyValue_append_left_none _ _ _ hall]
        simp [firstPropertyValue, propertyValueOf, minimalProperty, atomValue]
    · intro items2' hspi'
      cases hspi'
    · intro _
      constructor
      · intro tmpl htm
        simp [KSymbol.setOrAddProperty, hset, hspi, h, htm]
      · intro htm
        simp [KSymbol.setOrAddProperty, hset, hspi, h, htm]

/-- Witness for c5_set_or_add_property at a concrete symbol with no
property child. -/
theorem c5_set_or_add_property_witness :
    ((⟨"A", .list [.atom ⟨"symbol", false⟩, .atom ⟨"A", true⟩]⟩ : KSymbol).setOrAddProperty
        "Footprint" "Lib:FP").propertyValue "Footprint" = some "Lib:FP" :=
  (c5_set_or_add_property ⟨"A", .list [.atom ⟨"symbol", false⟩, .atom ⟨"A", true⟩]⟩
    [.atom ⟨"symbol", false⟩, .atom ⟨"A", true⟩] "Footprint" "Lib:FP" rfl).1

/-- C3: add_symbol appends when no child after the root keyword carries the
incoming name, and on a first match at index idx it replaces in place under
ReplaceExisting, leaves the library unchanged under SkipExisting, and
signals a conflict naming the symbol under ErrorOnConflict. -/
theorem c3_add_symbol_cases (lib : KicadSymbolLib) (sym : KSymbol) (first : Sexp)
    (rest : List Sexp) (hroot : lib.root = .list (first :: rest))
    (hok : ensureRoot lib.root = .ok ()) :
    ((∀ e ∈ rest, symbolName e ≠ some sym.name) →
      ∀ policy, lib.addSymbol sym policy =
        .ok ⟨.list ((first :: rest) ++ [sym.sexp])⟩) ∧
    (∀ idx, findSymbolIdx rest sym.name 1 = some idx →
      (∃ j e, idx = 1 + j ∧ rest.get? j = some e ∧ symbolName e = some sym.name ∧
        ∀ k e', k < j → rest.get? k = some e' → symbolName e' ≠ some sym.name) ∧
      lib.addSymbol sym .replaceExisting =
        .ok ⟨.list ((first :: rest).set idx sym.sexp)⟩ ∧
      lib.addSymbol sym .skipExisting = .ok lib ∧
      lib.addSymbol sym .errorOnConflict =
        .error ⟨"symbol already exists: " ++ sym.name, none, none⟩) := by
  constructor
  · intro hnone policy
    have hfind : findSymbolIdx rest sym.name 1 = none :=
      (findSymbolIdx_none_iff rest sym.name 1).mpr hnone
    cases policy <;>
      simp [KicadSymbolLib.addSymbol, hroot, hroot ▸ hok, hfind]
  · intro idx hfind
    refine ⟨findSymbolIdx_some rest sym.name 1 idx hfind, ?_, ?_, ?_⟩ <;>
      simp [KicadSymbolLib.addSymbol, hroot, hroot ▸ hok, hfind]

/-- Witness for c3_add_symbol_cases: a concrete library with symbol A and a
replacement for A. -/
theorem c3_add_symbol_cases_witness :
    (KicadSymbolLib.mk (.list [.atom ⟨"kicad_symbol_lib", false⟩,
        .list [.atom ⟨"symbol", false⟩, .atom ⟨"A", true⟩]])).addSymbol
      ⟨"A", .list [.atom ⟨"symbol", false⟩, .atom ⟨"A", true⟩, .atom ⟨"new", true⟩]⟩
      .skipExisting =
      .ok (KicadSymbolLib.mk (.list [.atom ⟨"kicad_symbol_lib", false⟩,
        .list [.atom ⟨"symbol", false⟩, .atom ⟨"A", true⟩]])) :=
  ((c3_add_symbol_cases
    (KicadSymbolLib.mk (.list [.atom ⟨"kicad_symbol_lib", false⟩,
      .list [.atom ⟨"symbol", false⟩, .atom ⟨"A", true⟩]]))
    ⟨"A", .list [.atom ⟨"symbol", false⟩, .atom ⟨"A", true⟩, .atom ⟨"new", true⟩]⟩
    (.atom ⟨"kicad_symbol_lib", false⟩)
    [.list [.atom ⟨"symbol", false⟩, .atom ⟨"A", true⟩]]
    rfl rfl).2 1 rfl).2.2.1

/-- C7: a symbol library is constructed exactly from a single top-level form
accepted by ensure_root, the accepted roots are the non-empty lists headed
by the kicad_symbol_lib atom, and add_symbol preserves that root shape. -/
theorem c7_root_invariant :
    (∀ input lib, KicadSymbolLib.parse input = .ok lib →
      parseSexps input = .ok [lib.root] ∧ ensureRoot lib.root = .ok ()) ∧
    (∀ input, (∃ lib, KicadSymbolLib.parse input = .ok lib) ↔
      (∃ root, parseSexps input = .ok [root] ∧ ensureRoot root = .ok ())) ∧
    (∀ root, ensureRoot root = .ok () ↔
      ∃ first rest, root = .list (first :: rest) ∧
        atomValue first = some "kicad_symbol_lib") ∧
    (∀ lib sym policy lib2, KicadSymbolLib.addSymbol lib sym policy = .ok lib2 →
      ensureRoot lib2.root = .ok ()) := by
  have hchar : ∀ root, ensureRoot root = .ok () ↔
      ∃ first rest, root = .list (first :: rest) ∧
        atomValue first = some "kicad_symbol_lib" := by
    intro root
    rcases root with a | ls
    · simp [ensureRoot]
    · rcases ls with _ | ⟨first, rest⟩
      · simp [ensureRoot]
      · by_cases hf : atomValue first = some "kicad_symbol_lib"
        · simp [ensureRoot, hf]
        · simp [ensureRoot, hf]
  have hparse : ∀ input lib, KicadSymbolLib.parse input = .ok lib →
      parseSexps input = .ok [lib.root] ∧ ensureRoot lib.root = .ok () := by
    intro input lib h
    unfold KicadSymbolLib.parse at h
    rcases hps : parseSexps input with e | es
    · rw [hps] at h
      simp at h
    · rw [hps] at h
      rcases es with _ | ⟨r, _ | ⟨r2, t⟩⟩
      · simp at h
      · simp only [] at h
        rcases hro : ensureRoot r with e2 | u
        · rw [hro] at h
          simp at h
        · rw [hro] at h
          simp at h
          cases u
          subst h
          exact ⟨rfl, hro⟩
      · simp at h
  refine ⟨hparse, ?_, hchar, ?_⟩
  · intro input
    constructor
    · rintro ⟨lib, h⟩
      exact ⟨lib.root, hparse input lib h⟩
    · rintro ⟨root, h1, h2⟩
      exact ⟨⟨root⟩, by simp [KicadSymbolLib.parse, h1, h2]⟩
  · intro lib sym policy lib2 h
    unfold KicadSymbolLib.addSymbol at h
    rcases hro : ensureRoot lib.root with e | u
    · rw [hro] at h
      simp at h
    · cases u
      rw [hro] at h
      obtain ⟨first, rest, hroot, hfirst⟩ := (hchar lib.root).mp hro
      rw [hroot] at h
      simp only [] at h
      rcases hfind : findSymbolIdx rest sym.name 1 with _ | idx
    -- none case
      · rw [hfind] at h
        cases policy <;> simp at h <;> rw [← h] <;>
          exact (hchar _).mpr ⟨first, rest ++ [sym.sexp], by simp, hfirst⟩
      · rw [hfind] at h
        obtain ⟨j, e, hidx, _, _, _⟩ := findSymbolIdx_some rest sym.name 1 idx hfind
        cases policy with
        | errorOnConflict => simp at h
        | skipExisting =>
          simp at h
          rw [← h]
          exact hro
        | replaceExisting =>
          simp at h
          rw [← h]
          refine (hchar _).mpr ⟨first, rest.set j sym.sexp, ?_, hfirst⟩
          have hj : idx = j + 1 := by omega
          simp [hj]

/-- Witness for c7_root_invariant: parse of a concrete library. -/
theorem c7_root_invariant_witness :
    parseSexps "(kicad_symbol_lib (version 7))" =
        .ok [KicadSymbolLib.mk (.list [.atom ⟨"kicad_symbol_lib", false⟩,
          .list [.atom ⟨"version", false⟩, .atom ⟨"7", false⟩]]) |>.root] ∧
      ensureRoot (KicadSymbolLib.mk (.list [.atom ⟨"kicad_symbol_lib", false⟩,
        .list [.atom ⟨"version", false⟩, .atom ⟨"7", false⟩]]) |>.root) = .ok () :=
  c7_root_invariant.1 "(kicad_symbol_lib (version 7))" _ rfl

/-- C6: parsing fails with a positioned error on a stray close paren, an
unterminated list, an unterminated quoted atom, an unterminated escape, and
end of input where a value is expected; the multi-form entry point returns
every top-level form in order, and the single-form convenience succeeds
exactly on one-form inputs and fails otherwise. -/
theorem c6_parse_errors :
    parseSexps ")" = .error ⟨"unexpected close paren", some 1, some 1⟩ ∧
    parseSexps "(a" = .error ⟨"unterminated list", some 1, some 3⟩ ∧
    parseSexps "\"ab" = .error ⟨"unterminated string", some 1, some 4⟩ ∧
    parseSexps "\"ab\\" = .error ⟨"unterminated escape", some 1, some 5⟩ ∧
    (∀ fuel st, st.input = [] → parseSexpF (fuel + 1) st =
      .error ⟨"unexpected end of input", some st.line, some st.column⟩) ∧
    parseSexps "a b (c)" =
      .ok [.atom ⟨"a", false⟩, .atom ⟨"b", false⟩, .list [.atom ⟨"c", false⟩]] ∧
    (∀ input e, parseOne input = .ok e ↔ parseSexps input = .ok [e]) ∧
    (∀ input es, parseSexps input = .ok es → es.length ≠ 1 →
      parseOne input = .error ⟨"expected a single top-level S-expression", none, none⟩) := by
  refine ⟨rfl, rfl, rfl, rfl, ?_, rfl, ?_, ?_⟩
  · intro fuel st hst
    rcases st with ⟨inp, l, c⟩
    simp only at hst
    subst hst
    rfl
  · intro input e
    constructor
    · intro h
      unfold parseOne at h
      rcases hps : parseSexps input with e2 | es
      · rw [hps] at h
        simp at h
      · rw [hps] at h
        rcases es with _ | ⟨r, _ | ⟨r2, t⟩⟩
        · simp at h
        · simp at h
          rw [h]
        · simp at h
    · intro h
      simp [parseOne, h]
  · intro input es h hne
    unfold parseOne
    rw [h]
    rcases es with _ | ⟨r, _ | ⟨r2, t⟩⟩
    · rfl
    · simp at hne
    · rfl

/-- Witness for c6_parse_errors: the single-form convenience fails on a
two-form input. -/
theorem c6_parse_errors_witness :
    parseOne "a b" =
      .error ⟨"expected a single top-level S-expression", none, none⟩ :=
  c6_parse_errors.2.2.2.2.2.2.2 "a b" [.atom ⟨"a", false⟩, .atom ⟨"b", false⟩]
    rfl (by decide)

/-- Counterexample to C1 as stated: a symbol whose Footprint property value
carries a trailing space. The literal claim extracts the name from the raw
value, fails the membership test, and (with two discovered footprints and no
name match) fails with an association error; the source trims the value
first and succeeds. -/
theorem c1_counterexample :
    selectFootprintForSymbol
        ⟨"S", .list [.atom ⟨"symbol", false⟩, .atom ⟨"S", true⟩,
          .list [.atom ⟨"property", false⟩, .atom ⟨"Footprint", true⟩,
            .atom ⟨"B ", true⟩]]⟩ ["B", "C"] = .ok "B" ∧
      claimSelectFootprint
        ⟨"S", .list [.atom ⟨"symbol", false⟩, .atom ⟨"S", true⟩,
          .list [.atom ⟨"property", false⟩, .atom ⟨"Footprint", true⟩,
            .atom ⟨"B ", true⟩]]⟩ ["B", "C"] =
        .error (.association "unable to choose footprint for symbol S") :=
  ⟨rfl, rfl⟩

/-- The selection outcome when the property step does not apply: single
discovered footprint, then name match, then association error (proof helper
describing steps two to four of select_footprint_for_symbol). -/
def fallbackSelect (symname : String) (fps : List String) : Except ImportError String :=
  match fps with
  | [single] => .ok single
  | _ =>
    if fps.contains symname then .ok symname
    else .error (.association ("unable to choose footprint for symbol " ++ symname))

/-- C1 (amended): footprint selection follows the priority order of the
claim, with the footprint-name portion extracted from the property value
after trimming leading and trailing whitespace (and non-emptiness tested
after the trim), as the source does. -/
theorem c1_selection_priority (sym : KSymbol) (fps : List String) :
    (∀ v name, sym.propertyValue "Footprint" = some v →
      footprintNameFromValue (rustTrim v) = some name → name ∈ fps →
      selectFootprintForSymbol sym fps = .ok name) ∧
    ((∀ v name, sym.propertyValue "Footprint" = some v →
        footprintNameFromValue (rustTrim v) = some name → name ∉ fps) →
      (∀ x, fps = [x] → selectFootprintForSymbol sym fps = .ok x) ∧
      (fps.length ≠ 1 → sym.name ∈ fps →
        selectFootprintForSymbol sym fps = .ok sym.name) ∧
      (fps.length ≠ 1 → sym.name ∉ fps →
        selectFootprintForSymbol sym fps =
          .error (.association ("unable to choose footprint for symbol " ++ sym.name)))) := by
  constructor
  · intro v name hpv hfn hmem
    have hne : rustTrim v ≠ "" := by
      intro hemp
      rw [hemp] at hfn
      simp [footprintNameFromValue] at hfn
    simp [selectFootprintForSymbol, hpv, hne, hfn, hmem]
  · intro hno
    have hsel : selectFootprintForSymbol sym fps = fallbackSelect sym.name fps := by
      rcases hpv : sym.propertyValue "Footprint" with _ | v
      · simp [selectFootprintForSymbol, fallbackSelect, hpv]
      · by_cases hemp : rustTrim v = ""
        · simp [selectFootprintForSymbol, fallbackSelect, hpv, hemp]
        · rcases hfn : footprintNameFromValue (rustTrim v) with _ | name
          · simp [selectFootprintForSymbol, fallbackSelect, hpv, hemp, hfn]
          · have hni : name ∉ fps := hno v name hpv hfn
            simp [selectFootprintForSymbol, fallbackSelect, hpv, hemp, hfn, hni]
    refine ⟨?_, ?_, ?_⟩
    · intro x hx
      subst hx
      simp [hsel, fallbackSelect]
    · intro hlen hmem
      rcases fps with _ | ⟨a, _ | ⟨b, t⟩⟩
      · simp at hmem
      · simp at hlen
      · rw [hsel]
        simp [fallbackSelect, hmem]
    · intro hlen hmem
      rcases fps with _ | ⟨a, _ | ⟨b, t⟩⟩
      · rw [hsel]
        simp [fallbackSelect, hmem]
      · simp at hlen
      · rw [hsel]
        simp [fallbackSelect, hmem]

/-- Witness for c1_selection_priority: a symbol carrying Footprint =
Lib:FP with FP among two discovered footprints resolves to FP. -/
theorem c1_selection_priority_witness :
    selectFootprintForSymbol
        ⟨"W", .list [.atom ⟨"symbol", false⟩, .atom ⟨"W", true⟩,
          .list [.atom ⟨"property", false⟩, .atom ⟨"Footprint", true⟩,
            .atom ⟨"Lib:FP", true⟩]]⟩ ["FP", "G"] = .ok "FP" :=
  (c1_selection_priority
    ⟨"W", .list [.atom ⟨"symbol", false⟩, .atom ⟨"W", true⟩,
      .list [.atom ⟨"property", false⟩, .atom ⟨"Footprint", true⟩,
        .atom ⟨"Lib:FP", true⟩]]⟩ ["FP", "G"]).1 "Lib:FP" "FP" rfl rfl (by decide)

/-- Counterexample to C9 as stated: a relative path. The claim embeds it
verbatim, the source prefixes the placeholder. -/
theorem c9_counterexample :
    makeUri "lib.kicad_sym" "/proj" = "${KIPRJMOD}/lib.kicad_sym" ∧
      claimMakeUri "lib.kicad_sym" "/proj" = "lib.kicad_sym" ∧
      "${KIPRJMOD}/lib.kicad_sym" ≠ "lib.kicad_sym" :=
  ⟨rfl, rfl, by decide⟩

/-- C9 (amended): the uri is the placeholder followed by the relativised
path when the path is absolute and inside the project root, the placeholder
followed by the path itself when the path is relative, and the path
embedded verbatim only when the path is absolute and outside the root (in
the placeholder cases leading ./ sequences are stripped). -/
theorem c9_make_uri (path root : String) :
    (pathIsAbsolute path = true → ∀ rel, stripPathRoot path root = some rel →
      makeUri path root = "${KIPRJMOD}/" ++ String.mk (trimDotSlashAux rel.data)) ∧
    (pathIsAbsolute path = false →
      makeUri path root = "${KIPRJMOD}/" ++ String.mk (trimDotSlashAux path.data)) ∧
    (pathIsAbsolute path = true → stripPathRoot path root = none →
      makeUri path root = path) := by
  refine ⟨?_, ?_, ?_⟩
  · intro habs rel hstrip
    simp [makeUri, habs, hstrip]
  · intro habs
    simp [makeUri, habs]
  · intro habs hstrip
    simp [makeUri, habs, hstrip]

/-- Witness for c9_make_uri: a relative path gets the placeholder. -/
theorem c9_make_uri_witness :
    makeUri "project_symbols.kicad_sym" "/proj" =
      "${KIPRJMOD}/" ++ String.mk (trimDotSlashAux "project_symbols.kicad_sym".data) :=
  (c9_make_uri "project_symbols.kicad_sym" "/proj").2.1 rfl

/-- C10 evidence: locating the library entry indexes the first element of
each child without an emptiness check, so a table whose root contains an
empty list child makes the update panic (modelled by the panicked error)
instead of skipping the child as a non-entry. -/
theorem c10_lib_name_panics :
    ensureTableText .symbol (some "(sym_lib_table (version 7) ())") "mylib" "u" =
      .error (.panicked "index out of bounds: lib_name indexes items[0] of an empty list") ∧
    libName (.list []) =
      .error (.panicked "index out of bounds: lib_name indexes items[0] of an empty list") :=
  ⟨rfl, rfl⟩

/-! Lemmas for the print-then-reparse round trip. -/

/-- The head of the remaining input neither continues whitespace skipping
nor starts a comment. -/
def cleanHead : List Char → Prop
  | [] => True
  | ch :: _ => rustIsWhitespace ch = false ∧ ch ≠ ';' ∧ ch ≠ '#'

/-- The head of the remaining input terminates a bare atom. -/
def stopHead : List Char → Prop
  | [] => True
  | ch :: _ => rustIsWhitespace ch = true ∨ isDelimChar ch = true

theorem skip_clean (cs : List Char) (l c : Nat) (h : cleanHead cs) :
    skipWsC cs l c false = ⟨cs, l, c⟩ := by
  cases cs with
  | nil => rfl
  | cons ch rest =>
    obtain ⟨h1, h2, h3⟩ := h
    simp [skipWsC, h1, h2, h3]

theorem skip_allWs_clean (w cs : List Char) (l c : Nat)
    (hw : ∀ ch ∈ w, rustIsWhitespace ch = true) (hc : cleanHead cs) :
    ∃ l2 c2, skipWsC (w ++ cs) l c false = ⟨cs, l2, c2⟩ := by
  induction w generalizing l c with
  | nil => exact ⟨l, c, skip_clean cs l c hc⟩
  | cons ch w2 ih =>
    have hch := hw ch (by simp)
    by_cases hn : ch = '\n'
    · subst hn
      simpa [skipWsC, hch] using ih (l + 1) 1 (fun x hx => hw x (List.mem_cons_of_mem _ hx))
    · simpa [skipWsC, hch, hn] using ih l (c + 1) (fun x hx => hw x (List.mem_cons_of_mem _ hx))

theorem bare_run (v rest : List Char) (l c : Nat)
    (hv : ∀ ch ∈ v, rustIsWhitespace ch = false ∧ isDelimChar ch = false)
    (hr : stopHead rest) :
    ∃ l2 c2, parseBareAux (v ++ rest) l c = (v, ⟨rest, l2, c2⟩) := by
  induction v generalizing l c with
  | nil =>
    cases rest with
    | nil => exact ⟨l, c, rfl⟩
    | cons ch t =>
      refine ⟨l, c, ?_⟩
      simp only [List.nil_append, parseBareAux]
      rcases hr with h | h <;> simp [h]
  | cons ch v2 ih =>
    obtain ⟨h1, h2⟩ := hv ch (by simp)
    obtain ⟨l2, c2, hrec⟩ := ih l (c + 1) (fun x hx => hv x (List.mem_cons_of_mem _ hx))
    refine ⟨l2, c2, ?_⟩
    simp [parseBareAux, h1, h2, hrec]

theorem parseQuotedBody_cons_other (ch : Char) (cs : List Char) (l c : Nat)
    (h1 : ch ≠ '"') (h2 : ch ≠ '\\') :
    parseQuotedBody (ch :: cs) l c =
      match parseQuotedBody cs (advPosPair ch l c).1 (advPosPair ch l c).2 with
      | .error err => .error err
      | .ok (v, st) => .ok (ch :: v, st) := by
  conv_lhs => rw [parseQuotedBody.eq_def]
  simp [h1, h2]

theorem parseQuotedBody_cons_esc (x : Char) (cs : List Char) (l c : Nat) :
    parseQuotedBody ('\\' :: x :: cs) l c =
      match parseQuotedBody cs (advPosPair x l (c + 1)).1 (advPosPair x l (c + 1)).2 with
      | .error err => .error err
      | .ok (v, st) => .ok (unescapeChar x :: v, st) := by
  conv_lhs => rw [parseQuotedBody.eq_def]
  simp [advPosPair]

theorem parseQuotedBody_cons_close (cs : List Char) (l c : Nat) :
    parseQuotedBody ('"' :: cs) l c = .ok ([], ⟨cs, l, c + 1⟩) := by
  conv_lhs => rw [parseQuotedBody.eq_def]
  simp [advPosPair]

theorem quoted_run (v rest : List Char) (l c : Nat) :
    ∃ l2 c2, parseQuotedBody ((v.map escapeChar).flatten ++ '"' :: rest) l c =
      .ok (v, ⟨rest, l2, c2⟩) := by
  induction v generalizing l c with
  | nil => exact ⟨l, c + 1, by simpa using parseQuotedBody_cons_close rest l c⟩
  | cons ch v2 ih =>
    have hesc : ∀ x : Char, unescapeChar x = ch →
        (∃ l2 c2, parseQuotedBody (('\\' :: [x]) ++
            ((v2.map escapeChar).flatten ++ '"' :: rest)) l c =
          .ok (ch :: v2, ⟨rest, l2, c2⟩)) := by
      intro x hx
      obtain ⟨l2, c2, hrec⟩ :=
        ih (advPosPair x l (c + 1)).1 (advPosPair x l (c + 1)).2
      refine ⟨l2, c2, ?_⟩
      rw [List.cons_append, List.singleton_append, parseQuotedBody_cons_esc, hrec, hx]
    by_cases h1 : ch = '\\'
    · subst h1
      simpa [escapeChar, unescapeChar] using hesc '\\' rfl
    · by_cases h2 : ch = '"'
      · subst h2
        simpa [escapeChar, unescapeChar] using hesc '"' rfl
      · by_cases h3 : ch = '\n'
        · subst h3
          simpa [escapeChar, unescapeChar] using hesc 'n' rfl
        · by_cases h4 : ch = '\r'
          · subst h4
            simpa [escapeChar, unescapeChar] using hesc 'r' rfl
          · by_cases h5 : ch = '\t'
            · subst h5
              simpa [escapeChar, unescapeChar] using hesc 't' rfl
            · obtain ⟨l2, c2, hrec⟩ :=
                ih (advPosPair ch l c).1 (advPosPair ch l c).2
              refine ⟨l2, c2, ?_⟩
              have hflat : ((ch :: v2).map escapeChar).flatten ++ '"' :: rest =
                  ch :: ((v2.map escapeChar).flatten ++ '"' :: rest) := by
                simp [escapeChar, h1, h2, h3, h4, h5]
              rw [hflat, parseQuotedBody_cons_other ch _ _ _ h2 h1, hrec]

theorem string_eta (s : String) : String.mk s.data = s := rfl

theorem isDelim_false (ch : Char) (h : isDelimChar ch = false) :
    ch ≠ '(' ∧ ch ≠ ')' ∧ ch ≠ '"' ∧ ch ≠ ';' ∧ ch ≠ '#' := by
  have h2 := by simpa [isDelimChar] using h
  exact ⟨h2.1.1.1.1, h2.1.1.1.2, h2.1.1.2, h2.1.2, h2.2⟩

theorem string_isEmpty_false_iff (v : String) :
    v.isEmpty = false ↔ v.data ≠ [] := by
  cases v with
  | mk d =>
    cases d with
    | nil => simp [String.isEmpty, String.length]
    | cons a t =>
      simp only [String.isEmpty, ne_eq, reduceCtorEq, not_false_eq_true, iff_true]
      simp only [String.endPos, beq_eq_false_iff_ne, ne_eq, String.Pos.ext_iff]
      have := Char.utf8Size_pos a
      simp [String.utf8ByteSize, String.utf8ByteSize.go]
      omega

theorem needsQuotes_eq_false_iff (v : String) :
    needsQuotes v = false ↔ v.data ≠ [] ∧
      ∀ ch ∈ v.data, rustIsWhitespace ch = false ∧ isDelimChar ch = false := by
  constructor
  · intro h
    simp only [needsQuotes, Bool.or_eq_false_iff] at h
    obtain ⟨h1, h2⟩ := h
    refine ⟨(string_isEmpty_false_iff v).mp h1, ?_⟩
    intro ch hch
    have := List.any_eq_false.mp h2 ch hch
    simpa [Bool.or_eq_false_iff] using this
  · rintro ⟨h1, h2⟩
    simp only [needsQuotes, Bool.or_eq_false_iff]
    refine ⟨(string_isEmpty_false_iff v).mpr h1, ?_⟩
    rw [List.any_eq_false]
    intro ch hch
    have := h2 ch hch
    simp [this.1, this.2]

/-- Character list produced by the pretty printer. -/
def printD (e : Sexp) (ind : Nat) (istr : String) : List Char :=
  (writePretty e ind istr).data

theorem writePretty_atom (a : Atom) (ind : Nat) (istr : String) :
    writePretty (.atom a) ind istr = renderAtom a := by
  rw [writePretty]

theorem writePretty_list (items : List Sexp) (ind : Nat) (istr : String) :
    writePretty (.list items) ind istr = writeListP items ind istr := by
  rw [writePretty]

theorem writeListP_nil (ind : Nat) (istr : String) :
    writeListP [] ind istr = "()" := by
  rw [writeListP]

theorem writeListP_cons_all (x : Sexp) (xs : List Sexp) (ind : Nat) (istr : String)
    (h : (x :: xs).all isAtomB = true) :
    writeListP (x :: xs) ind istr =
      "(" ++ writePretty x ind istr ++ writeInline xs ind istr ++ ")" := by
  rw [writeListP]
  simp [h]

theorem writeListP_cons_multi (x : Sexp) (xs : List Sexp) (ind : Nat) (istr : String)
    (h : (x :: xs).all isAtomB = false) :
    writeListP (x :: xs) ind istr =
      "(" ++ writePretty x ind istr ++ writeMulti xs ind istr ++ "\n" ++
        repeatStr istr ind ++ ")" := by
  rw [writeListP]
  simp [h]

theorem writeInline_nil (ind : Nat) (istr : String) : writeInline [] ind istr = "" := by
  rw [writeInline]

theorem writeInline_cons (x : Sexp) (xs : List Sexp) (ind : Nat) (istr : String) :
    writeInline (x :: xs) ind istr =
      " " ++ writePretty x ind istr ++ writeInline xs ind istr := by
  rw [writeInline]

theorem writeMulti_nil (ind : Nat) (istr : String) : writeMulti [] ind istr = "" := by
  rw [writeMulti]

theorem writeMulti_cons (x : Sexp) (xs : List Sexp) (ind : Nat) (istr : String) :
    writeMulti (x :: xs) ind istr =
      "\n" ++ repeatStr istr (ind + 1) ++ writePretty x (ind + 1) istr ++
        writeMulti xs ind istr := by
  rw [writeMulti]

theorem writeInline_data (xs : List Sexp) (ind : Nat) (istr : String) :
    (writeInline xs ind istr).data =
      (xs.map (fun e => ' ' :: printD e ind istr)).flatten := by
  induction xs with
  | nil => simp [writeInline_nil]
  | cons x xs2 ih =>
    rw [writeInline_cons]
    simp [String.data_append, ih, printD]

theorem writeMulti_data (xs : List Sexp) (ind : Nat) (istr : String) :
    (writeMulti xs ind istr).data =
      (xs.map (fun e =>
        '\n' :: ((repeatStr istr (ind + 1)).data ++ printD e (ind + 1) istr))).flatten := by
  induction xs with
  | nil => simp [writeMulti_nil]
  | cons x xs2 ih =>
    rw [writeMulti_cons]
    simp [String.data_append, ih, printD]

theorem repeatStr_ws (istr : String)
    (histr : ∀ ch ∈ istr.data, rustIsWhitespace ch = true) (k : Nat) :
    ∀ ch ∈ (repeatStr istr k).data, rustIsWhitespace ch = true := by
  induction k with
  | zero => simp [repeatStr]
  | succ k2 ih =>
    intro ch hch
    rw [repeatStr] at hch
    rw [String.data_append] at hch
    rcases List.mem_append.mp hch with h | h
    · exact histr ch h
    · exact ih ch h

theorem printD_head (e : Sexp) (ind : Nat) (istr : String) :
    ∃ ch cs, printD e ind istr = ch :: cs ∧
      rustIsWhitespace ch = false ∧ ch ≠ ';' ∧ ch ≠ '#' ∧ ch ≠ ')' := by
  rcases e with a | items
  · rcases hq : a.quoted || needsQuotes a.value with _ | _
    · have hnq : needsQuotes a.value = false := (Bool.or_eq_false_iff.mp hq).2
      obtain ⟨h1, h2⟩ := (needsQuotes_eq_false_iff a.value).mp hnq
      rcases hd : a.value.data with _ | ⟨ch, cs⟩
      · exact absurd hd h1
      · have hch := h2 ch (by rw [hd]; simp)
        obtain ⟨d1, d2, d3, d4, d5⟩ := isDelim_false ch hch.2
        refine ⟨ch, cs, ?_, hch.1, d4, d5, d2⟩
        simp [printD, writePretty_atom, renderAtom, hq, hd]
    · refine ⟨'"', ((escapeAtom a.value).data ++ ['"']), ?_, by decide, by decide,
        by decide, by decide⟩
      simp [printD, writePretty_atom, renderAtom, hq, String.data_append]
  · have hparen : rustIsWhitespace '(' = false ∧ ('(' : Char) ≠ ';' ∧
        ('(' : Char) ≠ '#' ∧ ('(' : Char) ≠ ')' := by decide
    rcases items with _ | ⟨x, xs⟩
    · exact ⟨'(', [')'], by simp [printD, writePretty_list, writeListP_nil],
        hparen.1, hparen.2.1, hparen.2.2.1, hparen.2.2.2⟩
    · rcases hall : (x :: xs).all isAtomB with _ | _
      · refine ⟨'(', (writePretty x ind istr ++ writeMulti xs ind istr ++ "\n" ++
          repeatStr istr ind ++ ")").data, ?_,
          hparen.1, hparen.2.1, hparen.2.2.1, hparen.2.2.2⟩
        rw [printD, writePretty_list, writeListP_cons_multi x xs ind istr hall]
        simp [String.data_append]
      · refine ⟨'(', (writePretty x ind istr ++ writeInline xs ind istr ++ ")").data, ?_,
          hparen.1, hparen.2.1, hparen.2.2.1, hparen.2.2.2⟩
        rw [printD, writePretty_list, writeListP_cons_all x xs ind istr hall]
        simp [String.data_append]

/-! Dispatch lemmas unfolding one parser step once the skipped input shape is
known. -/

theorem parseSexpF_dispatch_open (fuel : Nat) (st : PState) (rest : List Char)
    (h : (skipWsAndComments st).input = '(' :: rest) :
    parseSexpF (fuel + 1) st =
      match parseListF fuel ⟨rest, (skipWsAndComments st).line,
          (skipWsAndComments st).column + 1⟩ [] with
      | .error e => .error e
      | .ok (items, st2) => .ok (.list items, st2) := by
  conv_lhs => rw [parseSexpF.eq_def]
  simp only [h]

theorem parseSexpF_dispatch_quote (fuel : Nat) (st : PState) (rest : List Char)
    (h : (skipWsAndComments st).input = '"' :: rest) :
    parseSexpF (fuel + 1) st =
      match parseQuotedBody rest (skipWsAndComments st).line
          ((skipWsAndComments st).column + 1) with
      | .error e => .error e
      | .ok (v, st2) => .ok (.atom ⟨String.mk v, true⟩, st2) := by
  conv_lhs => rw [parseSexpF.eq_def]
  simp only [h]

theorem parseSexpF_dispatch_bare (fuel : Nat) (st : PState) (ch : Char)
    (rest : List Char) (h : (skipWsAndComments st).input = ch :: rest)
    (h1 : ch ≠ '(') (h2 : ch ≠ '"') (h3 : ch ≠ ')') :
    parseSexpF (fuel + 1) st = parseBareAtom (skipWsAndComments st) := by
  conv_lhs => rw [parseSexpF.eq_def]
  simp only [h]

theorem parseListF_dispatch_close (fuel : Nat) (st : PState) (acc : List Sexp)
    (rest : List Char) (h : (skipWsAndComments st).input = ')' :: rest) :
    parseListF (fuel + 1) st acc =
      .ok (acc, ⟨rest, (skipWsAndComments st).line, (skipWsAndComments st).column + 1⟩) := by
  conv_lhs => rw [parseListF.eq_def]
  simp only [h]

theorem parseListF_dispatch_step (fuel : Nat) (st : PState) (acc : List Sexp)
    (ch : Char) (rest : List Char) (h : (skipWsAndComments st).input = ch :: rest)
    (h3 : ch ≠ ')') :
    parseListF (fuel + 1) st acc =
      match parseSexpF fuel (skipWsAndComments st) with
      | .error e => .error e
      | .ok (x, st2) => parseListF fuel st2 (acc ++ [x]) := by
  conv_lhs => rw [parseListF.eq_def]
  simp only [h]

theorem parseAllF_dispatch_nil (fuel : Nat) (st : PState) (acc : List Sexp)
    (h : (skipWsAndComments st).input = []) :
    parseAllF (fuel + 1) st acc = .ok acc := by
  conv_lhs => rw [parseAllF.eq_def]
  simp only [h]

theorem parseAllF_dispatch_step (fuel : Nat) (st : PState) (acc : List Sexp)
    (ch : Char) (rest : List Char) (h : (skipWsAndComments st).input = ch :: rest) :
    parseAllF (fuel + 1) st acc =
      match parseSexpF fuel (skipWsAndComments st) with
      | .error e => .error e
      | .ok (x, st2) => parseAllF fuel st2 (acc ++ [x]) := by
  conv_lhs => rw [parseAllF.eq_def]
  simp only [h]

/-- Round-trip property of one printed tree: parsing the printed form
followed by any stopper-headed remainder yields the canon of the tree and
consumes exactly the printed form. -/
def RTok (istr : String) (e : Sexp) : Prop :=
  ∀ ind rest l c fuel, stopHead rest →
    2 * ((printD e ind istr).length + rest.length) + 1 ≤ fuel →
    ∃ l2 c2, parseSexpF fuel ⟨printD e ind istr ++ rest, l, c⟩ =
      .ok (canon e, ⟨rest, l2, c2⟩)

theorem skip_print_state (e : Sexp) (ind : Nat) (istr : String) (rest : List Char)
    (l c : Nat) :
    skipWsAndComments ⟨printD e ind istr ++ rest, l, c⟩ =
      ⟨printD e ind istr ++ rest, l, c⟩ := by
  obtain ⟨ch, cs, hd, hw, hs, hh, _⟩ := printD_head e ind istr
  rw [skipWsAndComments]
  simp only [hd, List.cons_append]
  exact skip_clean _ _ _ ⟨hw, hs, hh⟩

theorem atom_rt (istr : String) (a : Atom) : RTok istr (.atom a) := by
  intro ind rest l c fuel hstop hfuel
  have hne : (printD (.atom a) ind istr).length ≥ 1 := by
    obtain ⟨ch, cs, hd, _⟩ := printD_head (.atom a) ind istr
    simp [hd]
  rcases fuel with _ | f
  · omega
  have hskip := skip_print_state (.atom a) ind istr rest l c
  rcases hq : a.quoted || needsQuotes a.value with _ | _
  · -- bare case
    have hbq : a.quoted = false := (Bool.or_eq_false_iff.mp hq).1
    have hnq : needsQuotes a.value = false := (Bool.or_eq_false_iff.mp hq).2
    have hprint : printD (.atom a) ind istr = a.value.data := by
      simp [printD, writePretty_atom, renderAtom, hq]
    obtain ⟨hne2, hclean⟩ := (needsQuotes_eq_false_iff a.value).mp hnq
    rcases hdd : a.value.data with _ | ⟨ch0, v2⟩
    · exact absurd hdd hne2
    have hch0 := hclean ch0 (by rw [hdd]; simp)
    obtain ⟨d1, d2, d3, _, _⟩ := isDelim_false ch0 hch0.2
    have hin : (skipWsAndComments ⟨printD (.atom a) ind istr ++ rest, l, c⟩).input =
        ch0 :: (v2 ++ rest) := by
      rw [hskip]
      simp [hprint, hdd]
    rw [parseSexpF_dispatch_bare f _ ch0 (v2 ++ rest) hin d1 d3 d2]
    rw [hskip]
    obtain ⟨l2, c2, hbare⟩ := bare_run a.value.data rest l c hclean hstop
    refine ⟨l2, c2, ?_⟩
    simp only [parseBareAtom, hprint]
    rw [hbare, hdd]
    simp only []
    rw [canon_atom]
    have hmk : String.mk (ch0 :: v2) = a.value := hdd ▸ string_eta a.value
    simp [hmk, canonAtom, hbq, hnq]
  · -- quoted case
    have hprint : printD (.atom a) ind istr =
        '"' :: ((a.value.data.map escapeChar).flatten ++ ['"']) := by
      simp [printD, writePretty_atom, renderAtom, hq, String.data_append, escapeAtom]
    have hin : (skipWsAndComments ⟨printD (.atom a) ind istr ++ rest, l, c⟩).input =
        '"' :: ((a.value.data.map escapeChar).flatten ++ '"' :: rest) := by
      rw [hskip]
      simp [hprint]
    rw [parseSexpF_dispatch_quote f _ _ hin]
    rw [hskip]
    obtain ⟨l2, c2, hqr⟩ := quoted_run a.value.data rest l (c + 1)
    refine ⟨l2, c2, ?_⟩
    simp only []
    rw [hqr]
    rw [canon_atom]
    simp [string_eta, canonAtom, hq]

/-- Concatenation of whitespace-prefixed printed items, the body layout of a
printed list. -/
def encodeItems (istr : String) (ps : List (List Char × Sexp × Nat)) : List Char :=
  (ps.map (fun p => p.1 ++ printD p.2.1 p.2.2 istr)).flatten

theorem encodeItems_nil (istr : String) : encodeItems istr [] = [] := rfl

theorem encodeItems_cons (istr : String) (w : List Char) (e : Sexp) (ind : Nat)
    (ps : List (List Char × Sexp × Nat)) :
    encodeItems istr ((w, e, ind) :: ps) =
      w ++ printD e ind istr ++ encodeItems istr ps := by
  simp [encodeItems]

theorem close_clean : cleanHead (')' :: rest) := by
  refine ⟨by decide, by decide, by decide⟩

theorem items_run (istr : String) (ps : List (List Char × Sexp × Nat)) :
    ∀ (tailW rest : List Char) (acc : List Sexp) (l c fuel : Nat),
      (∀ p ∈ ps, ∀ ch ∈ p.1, rustIsWhitespace ch = true) →
      (∀ p ∈ ps.tail, p.1 ≠ []) →
      (∀ ch ∈ tailW, rustIsWhitespace ch = true) →
      (∀ p ∈ ps, RTok istr p.2.1) →
      2 * ((encodeItems istr ps).length + tailW.length + 1 + rest.length) + 2 ≤ fuel →
      ∃ l2 c2, parseListF fuel ⟨encodeItems istr ps ++ tailW ++ ')' :: rest, l, c⟩ acc
        = .ok (acc ++ ps.map (fun p => canon p.2.1), ⟨rest, l2, c2⟩) := by
  induction ps with
  | nil =>
    intro tailW rest acc l c fuel hw htail htw hrt hfuel
    rcases fuel with _ | f
    · omega
    obtain ⟨l1, c1, hskip⟩ := skip_allWs_clean tailW (')' :: rest) l c htw close_clean
    have hskipfull : skipWsAndComments ⟨encodeItems istr [] ++ tailW ++ ')' :: rest, l, c⟩
        = ⟨')' :: rest, l1, c1⟩ := by
      rw [skipWsAndComments]
      simp only [encodeItems_nil, List.nil_append]
      rw [hskip]
    have hin : (skipWsAndComments ⟨encodeItems istr [] ++ tailW ++ ')' :: rest, l, c⟩).input
        = ')' :: rest := by
      rw [hskipfull]
    rw [parseListF_dispatch_close f _ acc rest hin]
    rw [hskipfull]
    exact ⟨l1, c1 + 1, by simp⟩

  | cons p ps2 ih =>
    rcases p with ⟨w, e, ind⟩
    intro tailW rest acc l c fuel hw htail htw hrt hfuel
    rcases fuel with _ | f
    · omega
    obtain ⟨ch, cs, hpd, hchw, hchs, hchh, hchp⟩ := printD_head e ind istr
    have hpdlen : 1 ≤ (printD e ind istr).length := by simp [hpd]
    -- the remaining input after this item
    have hR : encodeItems istr ((w, e, ind) :: ps2) ++ tailW ++ ')' :: rest =
        w ++ (printD e ind istr ++ (encodeItems istr ps2 ++ tailW ++ ')' :: rest)) := by
      rw [encodeItems_cons]
      simp [List.append_assoc]
    have hstopR : stopHead (encodeItems istr ps2 ++ tailW ++ ')' :: rest) := by
      rcases ps2 with _ | ⟨⟨wq, eq2, indq⟩, qs⟩
      · rw [encodeItems_nil]
        cases tailW with
        | nil => exact Or.inr (by decide)
        | cons t0 ts => exact Or.inl (htw t0 (by simp))
      · have hne : wq ≠ [] := htail (wq, eq2, indq) (by simp)
        rcases wq with _ | ⟨q0, qs0⟩
        · exact absurd rfl hne
        · have hq0 := hw (q0 :: qs0, eq2, indq) (by simp) q0 (by simp)
          rw [encodeItems_cons]
          exact Or.inl hq0
    obtain ⟨l1, c1, hskip⟩ := skip_allWs_clean w
      (printD e ind istr ++ (encodeItems istr ps2 ++ tailW ++ ')' :: rest)) l c
      (fun x hx => hw (w, e, ind) (by simp) x hx)
      (by rw [hpd]; exact ⟨hchw, hchs, hchh⟩)
    have hskipfull : skipWsAndComments
        ⟨encodeItems istr ((w, e, ind) :: ps2) ++ tailW ++ ')' :: rest, l, c⟩ =
        ⟨printD e ind istr ++ (encodeItems istr ps2 ++ tailW ++ ')' :: rest), l1, c1⟩ := by
      rw [skipWsAndComments]
      simp only [hR]
      rw [hskip]
    have hin : (skipWsAndComments
        ⟨encodeItems istr ((w, e, ind) :: ps2) ++ tailW ++ ')' :: rest, l, c⟩).input =
        ch :: (cs ++ (encodeItems istr ps2 ++ tailW ++ ')' :: rest)) := by
      rw [hskipfull]
      simp [hpd]
    rw [parseListF_dispatch_step f _ acc ch _ hin hchp]
    rw [hskipfull]
    -- parse this item
    have hlen : (encodeItems istr ((w, e, ind) :: ps2)).length =
        w.length + ((printD e ind istr).length + (encodeItems istr ps2).length) := by
      rw [encodeItems_cons]
      simp
    have hrtE : RTok istr e := hrt (w, e, ind) (by simp)
    obtain ⟨l3, c3, hitem⟩ := hrtE ind
      (encodeItems istr ps2 ++ tailW ++ ')' :: rest) l1 c1 f hstopR
      (by
        rw [hlen] at hfuel
        simp only [List.length_append, List.length_cons] at hfuel ⊢
        omega)
    rw [hitem]
    -- parse the remaining items
    obtain ⟨l2, c2, hrest⟩ := ih tailW rest (acc ++ [canon e]) l3 c3 f
      (fun q hq => hw q (List.mem_cons_of_mem _ hq))
      (fun q hq => htail q (List.mem_of_mem_tail hq))
      htw
      (fun q hq => hrt q (List.mem_cons_of_mem _ hq))
      (by
        rw [hlen] at hfuel
        omega)
    refine ⟨l2, c2, ?_⟩
    simp only [List.append_assoc, List.singleton_append] at hrest ⊢
    exact hrest

theorem map_flatten_congr {α β : Type} (f g : α → List β) (l : List α)
    (h : ∀ a ∈ l, f a = g a) : (l.map f).flatten = (l.map g).flatten := by
  induction l with
  | nil => rfl
  | cons a t ih =>
    simp only [List.map_cons, List.flatten_cons]
    rw [h a (by simp), ih (fun b hb => h b (List.mem_cons_of_mem _ hb))]

theorem list_rt_from_encode (istr : String) (items : List Sexp)
    (ps : List (List Char × Sexp × Nat)) (tailW : List Char) (ind : Nat)
    (hshape : printD (.list items) ind istr =
      '(' :: (encodeItems istr ps ++ tailW ++ [')']))
    (hmap : ps.map (fun p => canon p.2.1) = items.map canon)
    (hw : ∀ p ∈ ps, ∀ ch ∈ p.1, rustIsWhitespace ch = true)
    (htail : ∀ p ∈ ps.tail, p.1 ≠ [])
    (htw : ∀ ch ∈ tailW, rustIsWhitespace ch = true)
    (hrt : ∀ p ∈ ps, RTok istr p.2.1) :
    ∀ rest l c fuel, stopHead rest →
      2 * ((printD (.list items) ind istr).length + rest.length) + 1 ≤ fuel →
      ∃ l2 c2, parseSexpF fuel ⟨printD (.list items) ind istr ++ rest, l, c⟩ =
        .ok (canon (.list items), ⟨rest, l2, c2⟩) := by
  intro rest l c fuel hstop hfuel
  rcases fuel with _ | f
  · omega
  have hskipfull := skip_print_state (.list items) ind istr rest l c
  have hin : (skipWsAndComments
      ⟨printD (.list items) ind istr ++ rest, l, c⟩).input =
      '(' :: (encodeItems istr ps ++ tailW ++ ')' :: rest) := by
    rw [hskipfull]
    simp only [hshape]
    simp [List.append_assoc]
  rw [parseSexpF_dispatch_open f _ _ hin]
  rw [hskipfull]
  have hlenP : (printD (.list items) ind istr).length =
      1 + ((encodeItems istr ps).length + (tailW.length + 1)) := by
    rw [hshape]
    simp
    omega
  obtain ⟨l2, c2, hlist⟩ := items_run istr ps tailW rest [] l (c + 1) f
    hw htail htw hrt
    (by
      rw [hlenP] at hfuel
      omega)
  refine ⟨l2, c2, ?_⟩
  simp only []
  rw [hlist]
  simp only [List.nil_append, hmap, canon_list]

theorem rt_all (istr : String)
    (histr : ∀ ch ∈ istr.data, rustIsWhitespace ch = true) :
    ∀ e, RTok istr e := by
  intro e
  induction e using Sexp.myInd with
  | hatom a => exact atom_rt istr a
  | hlist items ih =>
    rcases items with _ | ⟨x, xs⟩
    · intro ind
      refine list_rt_from_encode istr [] [] [] ind ?_ (by simp) (by simp) (by simp)
        (by simp) (by simp)
      simp [printD, writePretty_list, writeListP_nil, encodeItems_nil]
    · rcases hall : ((x :: xs).all isAtomB) with _ | _
      · -- multi-line layout
        intro ind
        refine list_rt_from_encode istr (x :: xs)
          (([], x, ind) :: xs.map (fun e2 =>
            ('\n' :: (repeatStr istr (ind + 1)).data, e2, ind + 1)))
          ('\n' :: (repeatStr istr ind).data) ind ?_ ?_ ?_ ?_ ?_ ?_
        · have henc : encodeItems istr (([], x, ind) :: xs.map (fun e2 =>
              ('\n' :: (repeatStr istr (ind + 1)).data, e2, ind + 1))) =
              printD x ind istr ++ (writeMulti xs ind istr).data := by
            rw [writeMulti_data]
            simp only [encodeItems, List.map_cons, List.flatten_cons, List.map_map,
              List.nil_append]
            exact congrArg _ (map_flatten_congr _ _ xs (fun a _ => rfl))
          rw [henc, printD, writePretty_list, writeListP_cons_multi x xs ind istr hall]
          simp [String.data_append, printD, List.append_assoc]
        · simp [List.map_map, canon_list]
        · intro p hp
          rcases List.mem_cons.mp hp with rfl | hmem
          · simp
          · obtain ⟨e2, _, rfl⟩ := List.mem_map.mp hmem
            intro ch hch
            rcases List.mem_cons.mp hch with rfl | hch2
            · decide
            · exact repeatStr_ws istr histr (ind + 1) ch hch2
        · intro p hp
          obtain ⟨e2, _, rfl⟩ := List.mem_map.mp hp
          simp
        · intro ch hch
          rcases List.mem_cons.mp hch with rfl | hch2
          · decide
          · exact repeatStr_ws istr histr ind ch hch2
        · intro p hp
          rcases List.mem_cons.mp hp with rfl | hmem
          · exact ih x (by simp)
          · obtain ⟨e2, he2, rfl⟩ := List.mem_map.mp hmem
            exact ih e2 (by simp [he2])
      · -- single-line all-atom layout
        intro ind
        refine list_rt_from_encode istr (x :: xs)
          (([], x, ind) :: xs.map (fun e2 => ([' '], e2, ind))) [] ind ?_ ?_ ?_ ?_
          (by simp) ?_
        · have henc : encodeItems istr (([], x, ind) :: xs.map (fun e2 =>
              ([' '], e2, ind))) =
              printD x ind istr ++ (writeInline xs ind istr).data := by
            rw [writeInline_data]
            simp only [encodeItems, List.map_cons, List.flatten_cons, List.map_map,
              List.nil_append]
            exact congrArg _ (map_flatten_congr _ _ xs (fun a _ => rfl))
          rw [henc, printD, writePretty_list, writeListP_cons_all x xs ind istr hall]
          simp [String.data_append, printD, List.append_assoc]
        · simp [List.map_map, canon_list]
        · intro p hp
          rcases List.mem_cons.mp hp with rfl | hmem
          · simp
          · obtain ⟨e2, _, rfl⟩ := List.mem_map.mp hmem
            intro ch hch
            simp at hch
            subst hch
            decide
        · intro p hp
          obtain ⟨e2, _, rfl⟩ := List.mem_map.mp hp
          simp
        · intro p hp
          rcases List.mem_cons.mp hp with rfl | hmem
          · exact ih x (by simp)
          · obtain ⟨e2, he2, rfl⟩ := List.mem_map.mp hmem
            exact ih e2 (by simp [he2])

/-- Character stream of a printed sequence of top-level forms, each followed
by its trailing newline. -/
def encodeAll (istr : String) (es : List Sexp) : List Char :=
  (es.map (fun e => printD e 0 istr ++ ['\n'])).flatten

theorem all_run (istr : String)
    (histr : ∀ ch ∈ istr.data, rustIsWhitespace ch = true) (es : List Sexp) :
    ∀ (w : List Char) (acc : List Sexp) (l c fuel : Nat),
      (∀ ch ∈ w, rustIsWhitespace ch = true) →
      2 * (w.length + (encodeAll istr es).length) + 2 ≤ fuel →
      parseAllF fuel ⟨w ++ encodeAll istr es, l, c⟩ acc = .ok (acc ++ es.map canon) := by
  induction es with
  | nil =>
    intro w acc l c fuel hw hfuel
    rcases fuel with _ | f
    · omega
    obtain ⟨l1, c1, hskip⟩ := skip_allWs_clean w [] l c hw trivial
    have hin : (skipWsAndComments ⟨w ++ encodeAll istr [], l, c⟩).input = [] := by
      rw [skipWsAndComments]
      have : encodeAll istr [] = [] := rfl
      rw [this, hskip]
    rw [parseAllF_dispatch_nil f _ acc hin]
    simp
  | cons e es2 ih =>
    intro w acc l c fuel hw hfuel
    rcases fuel with _ | f
    · omega
    obtain ⟨ch, cs, hpd, hchw, hchs, hchh, hchp⟩ := printD_head e 0 istr
    have hpdlen : 1 ≤ (printD e 0 istr).length := by simp [hpd]
    have hE : encodeAll istr (e :: es2) =
        printD e 0 istr ++ ('\n' :: encodeAll istr es2) := by
      simp [encodeAll]
    obtain ⟨l1, c1, hskip⟩ := skip_allWs_clean w
      (printD e 0 istr ++ ('\n' :: encodeAll istr es2)) l c hw
      (by rw [hpd]; exact ⟨hchw, hchs, hchh⟩)
    have hskipfull : skipWsAndComments ⟨w ++ encodeAll istr (e :: es2), l, c⟩ =
        ⟨printD e 0 istr ++ ('\n' :: encodeAll istr es2), l1, c1⟩ := by
      rw [skipWsAndComments]
      simp only [hE]
      rw [hskip]
    have hin : (skipWsAndComments ⟨w ++ encodeAll istr (e :: es2), l, c⟩).input =
        ch :: (cs ++ ('\n' :: encodeAll istr es2)) := by
      rw [hskipfull]
      simp [hpd]
    rw [parseAllF_dispatch_step f _ acc ch _ hin]
    rw [hskipfull]
    obtain ⟨l3, c3, hitem⟩ := rt_all istr histr e 0 ('\n' :: encodeAll istr es2) l1 c1 f
      (Or.inl (by decide))
      (by
        have : (encodeAll istr (e :: es2)).length =
            (printD e 0 istr).length + (1 + (encodeAll istr es2).length) := by
          rw [hE]
          simp
          omega
        rw [this] at hfuel
        simp only [List.length_cons]
        omega)
    rw [hitem]
    have hrest := ih ['\n'] (acc ++ [canon e]) l3 c3 f (by
        intro x hx
        simp at hx
        subst hx
        decide)
      (by
        have : (encodeAll istr (e :: es2)).length =
            (printD e 0 istr).length + (1 + (encodeAll istr es2).length) := by
          rw [hE]
          simp
          omega
        rw [this] at hfuel
        simp only [List.length_singleton]
        omega)
    simp only [List.singleton_append] at hrest
    simp only []
    rw [hrest]
    simp

theorem string_foldl_append_data (l : List String) :
    ∀ s : String, (l.foldl (· ++ ·) s).data = s.data ++ (l.map String.data).flatten := by
  induction l with
  | nil => intro s; simp
  | cons a t ih =>
    intro s
    simp only [List.foldl_cons, List.map_cons, List.flatten_cons]
    rw [ih (s ++ a)]
    simp [String.data_append]

theorem string_join_data (l : List String) :
    (String.join l).data = (l.map String.data).flatten := by
  have := string_foldl_append_data l ""
  simpa [String.join] using this

theorem toStringPrettyWithIndent_data (e : Sexp) (istr : String) :
    (toStringPrettyWithIndent e istr).data = printD e 0 istr ++ ['\n'] := by
  simp [toStringPrettyWithIndent, String.data_append, printD]

theorem joined_print_data (istr : String) (es : List Sexp) :
    (String.join (es.map (fun e => toStringPrettyWithIndent e istr))).data =
      encodeAll istr es := by
  rw [string_join_data]
  simp only [List.map_map, encodeAll]
  exact map_flatten_congr _ _ es (fun a _ => toStringPrettyWithIndent_data a istr)

theorem parse_print_all (istr : String)
    (histr : ∀ ch ∈ istr.data, rustIsWhitespace ch = true) (es : List Sexp) :
    parseSexps (String.join (es.map (fun e => toStringPrettyWithIndent e istr))) =
      .ok (es.map canon) := by
  rw [parseSexps]
  rw [joined_print_data]
  have := all_run istr histr es [] [] 1 1
    (2 * (encodeAll istr es).length + 2) (by simp) (by simp)
  simpa using this

/-! Canon preserves every value-level observation. -/

theorem atomValue_canon (e : Sexp) : atomValue (canon e) = atomValue e := by
  rcases e with a | items
  · rw [canon_atom]
    rfl
  · rw [canon_list]
    rfl

theorem symbolName_canon (e : Sexp) : symbolName (canon e) = symbolName e := by
  rcases e with a | items
  · rw [canon_atom]
    rfl
  · rw [canon_list]
    rcases items with _ | ⟨a, _ | ⟨b, t⟩⟩
    · rfl
    · rfl
    · simp [symbolName, atomValue_canon]

theorem propertyValueOf_canon (e : Sexp) (key : String) :
    propertyValueOf (canon e) key = propertyValueOf e key := by
  rcases e with a | items
  · rw [canon_atom]
    rfl
  · rw [canon_list]
    rcases items with _ | ⟨k, _ | ⟨n, _ | ⟨v, t⟩⟩⟩
    · rfl
    · rfl
    · rfl
    · simp [propertyValueOf, atomValue_canon]

theorem firstPropertyValue_canon (items : List Sexp) (key : String) :
    firstPropertyValue (items.map canon) key = firstPropertyValue items key := by
  induction items with
  | nil => rfl
  | cons x xs ih =>
    simp only [List.map_cons, firstPropertyValue, propertyValueOf_canon]
    cases propertyValueOf x key with
    | some v => rfl
    | none => exact ih

/-- The sequence of symbol names that KicadSymbolLib::symbols reports for a
root tree. -/
def symbolNamesOf : Sexp → List String
  | .list items => (items.drop 1).filterMap symbolName
  | .atom _ => []

/-- The property values of each symbol child of a root tree, in order, for a
given key. -/
def symbolsPropertyValues (e : Sexp) (key : String) : List (Option String) :=
  match e with
  | .list items =>
    ((items.drop 1).filter (fun it => (symbolName it).isSome)).map
      (fun s => match s with
        | .list its => firstPropertyValue its key
        | .atom _ => none)
  | .atom _ => []

theorem filterMap_symbolName_canon (l : List Sexp) :
    (l.map canon).filterMap symbolName = l.filterMap symbolName := by
  induction l with
  | nil => rfl
  | cons x xs ih =>
    simp only [List.map_cons, List.filterMap_cons, symbolName_canon]
    cases symbolName x with
    | some v => rw [ih]
    | none => exact ih

theorem symbolNamesOf_canon (e : Sexp) : symbolNamesOf (canon e) = symbolNamesOf e := by
  rcases e with a | items
  · rw [canon_atom]
    rfl
  · rw [canon_list]
    simp only [symbolNamesOf]
    rw [← List.map_drop]
    exact filterMap_symbolName_canon (items.drop 1)

theorem symbolsPropertyValues_list_canon (l : List Sexp) (key : String) :
    ((l.map canon).filter (fun it => (symbolName it).isSome)).map
      (fun s => match s with
        | .list its => firstPropertyValue its key
        | .atom _ => none) =
    (l.filter (fun it => (symbolName it).isSome)).map
      (fun s => match s with
        | .list its => firstPropertyValue its key
        | .atom _ => none) := by
  induction l with
  | nil => rfl
  | cons x xs ih =>
    simp only [List.map_cons, List.filter_cons, symbolName_canon]
    cases hs : (symbolName x).isSome with
    | false => simpa [hs] using ih
    | true =>
      simp only [hs, if_true]
      simp only [List.map_cons]
      rw [ih]
      congr 1
      rcases x with a | its
      · rw [canon_atom]
      · rw [canon_list]
        simp only []
        exact firstPropertyValue_canon its key

theorem symbolsPropertyValues_canon (e : Sexp) (key : String) :
    symbolsPropertyValues (canon e) key = symbolsPropertyValues e key := by
  rcases e with a | items
  · rw [canon_atom]
    rfl
  · rw [canon_list]
    simp only [symbolsPropertyValues]
    rw [← List.map_drop]
    exact symbolsPropertyValues_list_canon (items.drop 1) key

/-- C2: for every well-formed input, printing the parsed trees and parsing
the printed output again yields the same trees up to the quoted-flag
normalisation canon, hence the same sequence of symbol names and the same
property values; the print step loses no atom values or list structure. -/
theorem c2_roundtrip (text : String) (es : List Sexp)
    (h : parseSexps text = .ok es) :
    parseSexps (String.join (es.map toStringPretty)) = .ok (es.map canon) ∧
    (es.map canon).map symbolNamesOf = es.map symbolNamesOf ∧
    ∀ key, (es.map canon).map (fun e => symbolsPropertyValues e key) =
      es.map (fun e => symbolsPropertyValues e key) := by
  refine ⟨?_, ?_, ?_⟩
  · have hmain := parse_print_all "\t" (by decide) es
    simpa [toStringPretty] using hmain
  · rw [List.map_map]
    exact List.map_congr_left (fun e _ => symbolNamesOf_canon e)
  · intro key
    rw [List.map_map]
    exact List.map_congr_left (fun e _ => symbolsPropertyValues_canon e key)

/-- Witness for c2_roundtrip at a concrete two-symbol library. -/
theorem c2_roundtrip_witness :
    parseSexps (String.join
        (([Sexp.list [Sexp.atom ⟨"kicad_symbol_lib", false⟩,
          Sexp.list [Sexp.atom ⟨"symbol", false⟩, Sexp.atom ⟨"A", true⟩]]] :
            List Sexp).map toStringPretty)) =
      .ok (([Sexp.list [Sexp.atom ⟨"kicad_symbol_lib", false⟩,
        Sexp.list [Sexp.atom ⟨"symbol", false⟩, Sexp.atom ⟨"A", true⟩]]] :
          List Sexp).map canon) ∧
    (([Sexp.list [Sexp.atom ⟨"kicad_symbol_lib", false⟩,
        Sexp.list [Sexp.atom ⟨"symbol", false⟩, Sexp.atom ⟨"A", true⟩]]] :
          List Sexp).map canon).map symbolNamesOf =
      ([Sexp.list [Sexp.atom ⟨"kicad_symbol_lib", false⟩,
        Sexp.list [Sexp.atom ⟨"symbol", false⟩, Sexp.atom ⟨"A", true⟩]]] :
          List Sexp).map symbolNamesOf ∧
    ∀ key, (([Sexp.list [Sexp.atom ⟨"kicad_symbol_lib", false⟩,
        Sexp.list [Sexp.atom ⟨"symbol", false⟩, Sexp.atom ⟨"A", true⟩]]] :
          List Sexp).map canon).map (fun e => symbolsPropertyValues e key) =
      ([Sexp.list [Sexp.atom ⟨"kicad_symbol_lib", false⟩,
        Sexp.list [Sexp.atom ⟨"symbol", false⟩, Sexp.atom ⟨"A", true⟩]]] :
          List Sexp).map (fun e => symbolsPropertyValues e key) :=
  c2_roundtrip "(kicad_symbol_lib (symbol \"A\"))"
    [Sexp.list [Sexp.atom ⟨"kicad_symbol_lib", false⟩,
      Sexp.list [Sexp.atom ⟨"symbol", false⟩, Sexp.atom ⟨"A", true⟩]]] rfl

theorem needsQuotes_eq_true_iff (v : String) :
    needsQuotes v = true ↔ v.data = [] ∨ ∃ ch ∈ v.data,
      rustIsWhitespace ch = true ∨ ch = '(' ∨ ch = ')' ∨ ch = '"' ∨ ch = ';' ∨
        ch = '#' := by
  have hemp : v.isEmpty = true ↔ v.data = [] := by
    rw [← Bool.not_eq_false, string_isEmpty_false_iff, not_not]
  simp only [needsQuotes, Bool.or_eq_true, List.any_eq_true, isDelimChar]
  constructor
  · rintro (h | ⟨ch, hch, hp⟩)
    · exact Or.inl (hemp.mp h)
    · refine Or.inr ⟨ch, hch, ?_⟩
      simp only [Bool.or_eq_true, decide_eq_true_eq] at hp
      tauto
  · rintro (h | ⟨ch, hch, hp⟩)
    · exact Or.inl (hemp.mpr h)
    · refine Or.inr ⟨ch, hch, ?_⟩
      simp only [Bool.or_eq_true, decide_eq_true_eq]
      tauto

theorem parse_render (a : Atom) :
    parseSexps (renderAtom a) = .ok [.atom (canonAtom a)] := by
  have hdata : (renderAtom a).data = printD (.atom a) 0 "\t" := by
    rw [printD, writePretty_atom]
  simp only [parseSexps, hdata]
  obtain ⟨ch, cs, hpd, hchw, hchs, hchh, hchp⟩ := printD_head (.atom a) 0 "\t"
  have hn : (printD (.atom a) 0 "\t").length = cs.length + 1 := by
    rw [hpd]
    simp
  rw [hn]
  have hf : 2 * (cs.length + 1) + 2 = 2 * cs.length + 3 + 1 := by omega
  rw [hf]
  have hclean : cleanHead (printD (.atom a) 0 "\t") := by
    rw [hpd]
    exact ⟨hchw, hchs, hchh⟩
  obtain ⟨l1, c1, hskip⟩ := skip_allWs_clean [] (printD (.atom a) 0 "\t") 1 1
    (by simp) hclean
  have hskipfull : skipWsAndComments ⟨printD (.atom a) 0 "\t", 1, 1⟩ =
      ⟨printD (.atom a) 0 "\t", l1, c1⟩ := by
    rw [skipWsAndComments]
    simpa using hskip
  have hin : (skipWsAndComments ⟨printD (.atom a) 0 "\t", 1, 1⟩).input = ch :: cs := by
    rw [hskipfull, hpd]
  rw [parseAllF_dispatch_step (2 * cs.length + 3) _ [] ch cs hin]
  rw [hskipfull]
  obtain ⟨l2, c2, hitem⟩ := atom_rt "\t" a 0 [] l1 c1 (2 * cs.length + 3) trivial
    (by rw [hn]; simp; omega)
  rw [List.append_nil] at hitem
  rw [hitem]
  have hf2 : 2 * cs.length + 3 = 2 * cs.length + 2 + 1 := by omega
  rw [hf2]
  show parseAllF (2 * cs.length + 2 + 1) ⟨[], l2, c2⟩
    ([] ++ [canon (Sexp.atom a)]) = Except.ok [Sexp.atom (canonAtom a)]
  rw [parseAllF_dispatch_nil (2 * cs.length + 2) ⟨[], l2, c2⟩
    ([] ++ [canon (Sexp.atom a)]) rfl]
  rw [canon_atom]
  rfl

/-- C4: an atom renders bare exactly when its quoted flag is clear and its
value needs no quoting; otherwise it renders between double quotes with each
character expanded by the escape table (backslash, double quote, newline,
carriage return and tab escaped, everything else passed through); needing
quotes is exactly being empty or containing whitespace or one of the five
delimiter characters; a value containing a space therefore needs quotes; and
parsing the rendered form yields a single atom with the identical value. -/
theorem c4_render_atom (a : Atom) :
    (a.quoted = false → needsQuotes a.value = false → renderAtom a = a.value) ∧
    (a.quoted = true ∨ needsQuotes a.value = true →
      renderAtom a = "\"" ++ String.mk (a.value.data.map escapeChar).flatten ++
        "\"") ∧
    (needsQuotes a.value = true ↔ a.value.data = [] ∨ ∃ ch ∈ a.value.data,
      rustIsWhitespace ch = true ∨ ch = '(' ∨ ch = ')' ∨ ch = '"' ∨ ch = ';' ∨
        ch = '#') ∧
    (' ' ∈ a.value.data → needsQuotes a.value = true) ∧
    parseSexps (renderAtom a) =
      .ok [.atom ⟨a.value, a.quoted || needsQuotes a.value⟩] := by
  refine ⟨?_, ?_, ?_, ?_, ?_⟩
  · intro hq hn
    simp [renderAtom, hq, hn]
  · intro h
    have hb : (a.quoted || needsQuotes a.value) = true := by
      rcases h with h | h <;> simp [h]
    simp [renderAtom, hb, escapeAtom]
  · exact needsQuotes_eq_true_iff a.value
  · intro hsp
    exact (needsQuotes_eq_true_iff a.value).mpr
      (Or.inr ⟨' ', hsp, Or.inl (by decide)⟩)
  · simpa [canonAtom] using parse_render a

/-- Witness for c4_render_atom at the value LM 2907-8 from the spec. -/
theorem c4_render_atom_witness :
    renderAtom ⟨"LM 2907-8", false⟩ =
      "\"" ++ String.mk (("LM 2907-8" : String).data.map escapeChar).flatten ++
        "\"" ∧
    parseSexps (renderAtom ⟨"LM 2907-8", false⟩) =
      .ok [.atom ⟨"LM 2907-8", true⟩] := by
  refine ⟨?_, ?_⟩
  · exact (c4_render_atom ⟨"LM 2907-8", false⟩).2.1 (Or.inr (by decide))
  · have h := (c4_render_atom ⟨"LM 2907-8", false⟩).2.2.2.2
    have hb : (false || needsQuotes "LM 2907-8") = true := by decide
    rw [hb] at h
    exact h

/-! The printed form of a tree is unchanged by canon: forcing the quoted
flag of an atom that needed quotes anyway does not change how it renders. -/

theorem renderAtom_canonAtom (a : Atom) : renderAtom (canonAtom a) = renderAtom a := by
  simp [renderAtom, canonAtom, Bool.or_assoc, Bool.or_self]

theorem isAtomB_canon (e : Sexp) : isAtomB (canon e) = isAtomB e := by
  rcases e with a | items
  · rw [canon_atom]
    rfl
  · rw [canon_list]
    rfl

theorem all_isAtomB_canon (l : List Sexp) :
    (l.map canon).all isAtomB = l.all isAtomB := by
  induction l with
  | nil => rfl
  | cons x xs ih => simp [isAtomB_canon, ih]

theorem writeInline_canon (l : List Sexp)
    (hp : ∀ x ∈ l, ∀ (ind : Nat) (istr : String),
      writePretty (canon x) ind istr = writePretty x ind istr)
    (ind : Nat) (istr : String) :
    writeInline (l.map canon) ind istr = writeInline l ind istr := by
  induction l with
  | nil => rfl
  | cons x xs ih =>
    rw [List.map_cons, writeInline_cons, writeInline_cons, hp x (by simp) ind istr,
      ih (fun y hy => hp y (List.mem_cons_of_mem _ hy))]

theorem writeMulti_canon (l : List Sexp)
    (hp : ∀ x ∈ l, ∀ (ind : Nat) (istr : String),
      writePretty (canon x) ind istr = writePretty x ind istr)
    (ind : Nat) (istr : String) :
    writeMulti (l.map canon) ind istr = writeMulti l ind istr := by
  induction l generalizing ind with
  | nil => rfl
  | cons x xs ih =>
    rw [List.map_cons, writeMulti_cons, writeMulti_cons, hp x (by simp) (ind + 1) istr,
      ih (fun y hy => hp y (List.mem_cons_of_mem _ hy)) ind]

theorem writePretty_canon (e : Sexp) : ∀ (ind : Nat) (istr : String),
    writePretty (canon e) ind istr = writePretty e ind istr := by
  induction e using Sexp.myInd with
  | hatom a =>
    intro ind istr
    rw [canon_atom, writePretty_atom, writePretty_atom, renderAtom_canonAtom]
  | hlist items ih =>
    intro ind istr
    rw [canon_list, writePretty_list, writePretty_list]
    rcases items with _ | ⟨x, xs⟩
    · rfl
    · rw [List.map_cons]
      rcases hall : (x :: xs).all isAtomB with _ | _
      · have hall2 : (canon x :: xs.map canon).all isAtomB = false := by
          rw [← List.map_cons, all_isAtomB_canon, hall]
        rw [writeListP_cons_multi _ _ _ _ hall2, writeListP_cons_multi _ _ _ _ hall,
          ih x (by simp) ind istr,
          writeMulti_canon xs (fun y hy => ih y (List.mem_cons_of_mem _ hy)) ind istr]
      · have hall2 : (canon x :: xs.map canon).all isAtomB = true := by
          rw [← List.map_cons, all_isAtomB_canon, hall]
        rw [writeListP_cons_all _ _ _ _ hall2, writeListP_cons_all _ _ _ _ hall,
          ih x (by simp) ind istr,
          writeInline_canon xs (fun y hy => ih y (List.mem_cons_of_mem _ hy)) ind istr]

theorem toStringPretty_canon (e : Sexp) (istr : String) :
    toStringPrettyWithIndent (canon e) istr = toStringPrettyWithIndent e istr := by
  rw [toStringPrettyWithIndent, toStringPrettyWithIndent, writePretty_canon]

theorem string_ext_data (s t : String) (h : s.data = t.data) : s = t := by
  cases s
  cases t
  exact congrArg String.mk h

theorem string_join_one (s : String) : String.join [s] = s := by
  apply string_ext_data
  rw [string_join_data]
  simp

theorem parse_print_one (e : Sexp) :
    parseSexps (toStringPrettyWithIndent e "  ") = .ok [canon e] := by
  have h := parse_print_all "  " (by decide) [e]
  rw [List.map_cons, List.map_nil, string_join_one] at h
  simpa using h

/-! Fixpoint behaviour of set_child_value: once a key slot holds the target
quoted value, scanning again finds it unchanged, other keys leave it alone,
appending leaves it alone, and canon leaves it alone. -/

theorem scv_aux_self (k v : String) : ∀ (l l2 : List Sexp),
    setChildValueAux l k v = some l2 → setChildValueAux l2 k v = some l2 := by
  intro l
  induction l with
  | nil => intro l2 h; simp [setChildValueAux] at h
  | cons item rest ih =>
    intro l2 h
    rcases item with a | (_ | ⟨kk, _ | ⟨x, tail⟩⟩)
    · simp only [setChildValueAux] at h
      rcases hrec : setChildValueAux rest k v with _ | r2
      · rw [hrec] at h
        simp at h
      · rw [hrec] at h
        simp only [Option.some.injEq] at h
        subst h
        simp only [setChildValueAux, ih r2 hrec]
    · simp only [setChildValueAux] at h
      rcases hrec : setChildValueAux rest k v with _ | r2
      · rw [hrec] at h
        simp at h
      · rw [hrec] at h
        simp only [Option.some.injEq] at h
        subst h
        simp only [setChildValueAux, ih r2 hrec]
    · simp only [setChildValueAux] at h
      rcases hrec : setChildValueAux rest k v with _ | r2
      · rw [hrec] at h
        simp at h
      · rw [hrec] at h
        simp only [Option.some.injEq] at h
        subst h
        simp only [setChildValueAux, ih r2 hrec]
    · by_cases hkk : atomValue kk = some k
      · simp only [setChildValueAux, if_pos hkk, Option.some.injEq] at h
        subst h
        simp only [setChildValueAux, if_pos hkk]
      · simp only [setChildValueAux, if_neg hkk] at h
        rcases hrec : setChildValueAux rest k v with _ | r2
        · rw [hrec] at h
          simp at h
        · rw [hrec] at h
          simp only [Option.some.injEq] at h
          subst h
          simp only [setChildValueAux, if_neg hkk, ih r2 hrec]

theorem scv_aux_append (k v : String) : ∀ (l l2 m : List Sexp),
    setChildValueAux l k v = some l2 →
    setChildValueAux (l ++ m) k v = some (l2 ++ m) := by
  intro l
  induction l with
  | nil => intro l2 m h; simp [setChildValueAux] at h
  | cons item rest ih =>
    intro l2 m h
    rcases item with a | (_ | ⟨kk, _ | ⟨x, tail⟩⟩)
    · simp only [setChildValueAux] at h
      rcases hrec : setChildValueAux rest k v with _ | r2
      · rw [hrec] at h
        simp at h
      · rw [hrec] at h
        simp only [Option.some.injEq] at h
        subst h
        simp only [List.cons_append, setChildValueAux, List.append_eq, ih r2 m hrec]
    · simp only [setChildValueAux] at h
      rcases hrec : setChildValueAux rest k v with _ | r2
      · rw [hrec] at h
        simp at h
      · rw [hrec] at h
        simp only [Option.some.injEq] at h
        subst h
        simp only [List.cons_append, setChildValueAux, List.append_eq, ih r2 m hrec]
    · simp only [setChildValueAux] at h
      rcases hrec : setChildValueAux rest k v with _ | r2
      · rw [hrec] at h
        simp at h
      · rw [hrec] at h
        simp only [Option.some.injEq] at h
        subst h
        simp only [List.cons_append, setChildValueAux, List.append_eq, ih r2 m hrec]
    · by_cases hkk : atomValue kk = some k
      · simp only [setChildValueAux, if_pos hkk, Option.some.injEq] at h
        subst h
        simp only [List.cons_append, setChildValueAux, List.append_eq, if_pos hkk]
      · simp only [setChildValueAux, if_neg hkk] at h
        rcases hrec : setChildValueAux rest k v with _ | r2
        · rw [hrec] at h
          simp at h
        · rw [hrec] at h
          simp only [Option.some.injEq] at h
          subst h
          simp only [List.cons_append, setChildValueAux, List.append_eq, if_neg hkk, ih r2 m hrec]

theorem scv_aux_push (k v : String) : ∀ (l : List Sexp),
    setChildValueAux l k v = none →
    setChildValueAux (l ++ [pairEntry k v]) k v = some (l ++ [pairEntry k v]) := by
  intro l
  induction l with
  | nil =>
    intro _
    simp [setChildValueAux, pairEntry, atomValue]
  | cons item rest ih =>
    intro h
    rcases item with a | (_ | ⟨kk, _ | ⟨x, tail⟩⟩)
    · simp only [setChildValueAux] at h
      rcases hrec : setChildValueAux rest k v with _ | r2
      · simp only [List.cons_append, setChildValueAux, List.append_eq, ih hrec]
      · rw [hrec] at h
        simp at h
    · simp only [setChildValueAux] at h
      rcases hrec : setChildValueAux rest k v with _ | r2
      · simp only [List.cons_append, setChildValueAux, List.append_eq, ih hrec]
      · rw [hrec] at h
        simp at h
    · simp only [setChildValueAux] at h
      rcases hrec : setChildValueAux rest k v with _ | r2
      · simp only [List.cons_append, setChildValueAux, List.append_eq, ih hrec]
      · rw [hrec] at h
        simp at h
    · by_cases hkk : atomValue kk = some k
      · simp only [setChildValueAux, if_pos hkk] at h
        simp at h
      · simp only [setChildValueAux, if_neg hkk] at h
        rcases hrec : setChildValueAux rest k v with _ | r2
        · simp only [List.cons_append, setChildValueAux, List.append_eq, if_neg hkk, ih hrec]
        · rw [hrec] at h
          simp at h

theorem scv_aux_other (k v k2 v2 : String) (hk : k ≠ k2) : ∀ (l l2 : List Sexp),
    setChildValueAux l k v = some l →
    setChildValueAux l k2 v2 = some l2 →
    setChildValueAux l2 k v = some l2 := by
  intro l
  induction l with
  | nil => intro l2 hfix _; simp [setChildValueAux] at hfix
  | cons item rest ih =>
    intro l2 hfix h2
    rcases item with a | (_ | ⟨kk, _ | ⟨x, tail⟩⟩)
    · simp only [setChildValueAux] at hfix h2
      rcases hrecf : setChildValueAux rest k v with _ | rest2
      · rw [hrecf] at hfix
        simp at hfix
      · rw [hrecf] at hfix
        simp only [Option.some.injEq, List.cons.injEq, true_and] at hfix
        rw [hfix] at hrecf
        rcases hrec2 : setChildValueAux rest k2 v2 with _ | r2
        · rw [hrec2] at h2
          simp at h2
        · rw [hrec2] at h2
          simp only [Option.some.injEq] at h2
          subst h2
          simp only [setChildValueAux, ih r2 hrecf hrec2]
    · simp only [setChildValueAux] at hfix h2
      rcases hrecf : setChildValueAux rest k v with _ | rest2
      · rw [hrecf] at hfix
        simp at hfix
      · rw [hrecf] at hfix
        simp only [Option.some.injEq, List.cons.injEq, true_and] at hfix
        rw [hfix] at hrecf
        rcases hrec2 : setChildValueAux rest k2 v2 with _ | r2
        · rw [hrec2] at h2
          simp at h2
        · rw [hrec2] at h2
          simp only [Option.some.injEq] at h2
          subst h2
          simp only [setChildValueAux, ih r2 hrecf hrec2]
    · simp only [setChildValueAux] at hfix h2
      rcases hrecf : setChildValueAux rest k v with _ | rest2
      · rw [hrecf] at hfix
        simp at hfix
      · rw [hrecf] at hfix
        simp only [Option.some.injEq, List.cons.injEq, true_and] at hfix
        rw [hfix] at hrecf
        rcases hrec2 : setChildValueAux rest k2 v2 with _ | r2
        · rw [hrec2] at h2
          simp at h2
        · rw [hrec2] at h2
          simp only [Option.some.injEq] at h2
          subst h2
          simp only [setChildValueAux, ih r2 hrecf hrec2]
    · by_cases hkk : atomValue kk = some k
      · have hkk2 : ¬ atomValue kk = some k2 := by
          intro hx
          rw [hkk] at hx
          exact hk (Option.some.inj hx)
        simp only [setChildValueAux, if_pos hkk, Option.some.injEq, List.cons.injEq,
          Sexp.list.injEq, true_and, and_true] at hfix
        subst hfix
        simp only [setChildValueAux, if_neg hkk2] at h2
        rcases hrec2 : setChildValueAux rest k2 v2 with _ | r2
        · rw [hrec2] at h2
          simp at h2
        · rw [hrec2] at h2
          simp only [Option.some.injEq] at h2
          subst h2
          simp only [setChildValueAux, if_pos hkk]
      · simp only [setChildValueAux, if_neg hkk] at hfix h2
        rcases hrecf : setChildValueAux rest k v with _ | rest2
        · rw [hrecf] at hfix
          simp at hfix
        · rw [hrecf] at hfix
          simp only [Option.some.injEq, List.cons.injEq, true_and] at hfix
          rw [hfix] at hrecf
          by_cases hkk2 : atomValue kk = some k2
          · simp only [if_pos hkk2, Option.some.injEq] at h2
            subst h2
            simp only [setChildValueAux, if_neg hkk, hrecf]
          · simp only [if_neg hkk2] at h2
            rcases hrec2 : setChildValueAux rest k2 v2 with _ | r2
            · rw [hrec2] at h2
              simp at h2
            · rw [hrec2] at h2
              simp only [Option.some.injEq] at h2
              subst h2
              simp only [setChildValueAux, if_neg hkk, ih r2 hrecf hrec2]

theorem scv_aux_canon (k v : String) : ∀ (l : List Sexp),
    setChildValueAux l k v = some l →
    setChildValueAux (l.map canon) k v = some (l.map canon) := by
  intro l
  induction l with
  | nil => intro hfix; simp [setChildValueAux] at hfix
  | cons item rest ih =>
    intro hfix
    rcases item with a | (_ | ⟨kk, _ | ⟨x, tail⟩⟩)
    · simp only [setChildValueAux] at hfix
      rcases hrecf : setChildValueAux rest k v with _ | rest2
      · rw [hrecf] at hfix
        simp at hfix
      · rw [hrecf] at hfix
        simp only [Option.some.injEq, List.cons.injEq, true_and] at hfix
        subst hfix
        rw [List.map_cons, canon_atom]
        simp only [setChildValueAux, ih hrecf]
    · simp only [setChildValueAux] at hfix
      rcases hrecf : setChildValueAux rest k v with _ | rest2
      · rw [hrecf] at hfix
        simp at hfix
      · rw [hrecf] at hfix
        simp only [Option.some.injEq, List.cons.injEq, true_and] at hfix
        subst hfix
        rw [List.map_cons, canon_list, List.map_nil]
        simp only [setChildValueAux, ih hrecf]
    · simp only [setChildValueAux] at hfix
      rcases hrecf : setChildValueAux rest k v with _ | rest2
      · rw [hrecf] at hfix
        simp at hfix
      · rw [hrecf] at hfix
        simp only [Option.some.injEq, List.cons.injEq, true_and] at hfix
        subst hfix
        rw [List.map_cons, canon_list, List.map_cons, List.map_nil]
        simp only [setChildValueAux, ih hrecf]
    · by_cases hkk : atomValue kk = some k
      · simp only [setChildValueAux, if_pos hkk, Option.some.injEq, List.cons.injEq,
          Sexp.list.injEq, true_and, and_true] at hfix
        subst hfix
        rw [List.map_cons, canon_list, List.map_cons, List.map_cons, canon_atom]
        have hca : canonAtom ⟨v, true⟩ = ⟨v, true⟩ := by
          simp [canonAtom]
        rw [hca]
        have hkk2 : atomValue (canon kk) = some k := by
          rw [atomValue_canon]
          exact hkk
        simp only [setChildValueAux, if_pos hkk2]
      · simp only [setChildValueAux, if_neg hkk] at hfix
        rcases hrecf : setChildValueAux rest k v with _ | rest2
        · rw [hrecf] at hfix
          simp at hfix
        · rw [hrecf] at hfix
          simp only [Option.some.injEq, List.cons.injEq, true_and] at hfix
          subst hfix
          rw [List.map_cons, canon_list, List.map_cons, List.map_cons]
          have hkk2 : ¬ atomValue (canon kk) = some k := by
            rw [atomValue_canon]
            exact hkk
          simp only [setChildValueAux, if_neg hkk2, ih hrecf]

theorem setChildValue_fixed (f : Sexp) (r : List Sexp) (k v : String)
    (h : setChildValueAux r k v = some r) : setChildValue (f :: r) k v = f :: r := by
  simp only [setChildValue, h]

/-! How the name slot of a lib entry behaves under set_child_value, append
and canon. -/

theorem findNameIn_scv_name (v : String) : ∀ (l l2 : List Sexp),
    setChildValueAux l "name" v = some l2 → findNameIn l2 = some v := by
  intro l
  induction l with
  | nil => intro l2 h; simp [setChildValueAux] at h
  | cons item rest ih =>
    intro l2 h
    rcases item with a | (_ | ⟨kk, _ | ⟨x, tail⟩⟩)
    · simp only [setChildValueAux] at h
      rcases hrec : setChildValueAux rest "name" v with _ | r2
      · rw [hrec] at h
        simp at h
      · rw [hrec] at h
        simp only [Option.some.injEq] at h
        subst h
        simpa [findNameIn] using ih r2 hrec
    · simp only [setChildValueAux] at h
      rcases hrec : setChildValueAux rest "name" v with _ | r2
      · rw [hrec] at h
        simp at h
      · rw [hrec] at h
        simp only [Option.some.injEq] at h
        subst h
        simpa [findNameIn] using ih r2 hrec
    · simp only [setChildValueAux] at h
      rcases hrec : setChildValueAux rest "name" v with _ | r2
      · rw [hrec] at h
        simp at h
      · rw [hrec] at h
        simp only [Option.some.injEq] at h
        subst h
        simpa [findNameIn] using ih r2 hrec
    · by_cases hkk : atomValue kk = some "name"
      · simp only [setChildValueAux, if_pos hkk, Option.some.injEq] at h
        subst h
        simp only [findNameIn, if_pos hkk]
        rfl
      · simp only [setChildValueAux, if_neg hkk] at h
        rcases hrec : setChildValueAux rest "name" v with _ | r2
        · rw [hrec] at h
          simp at h
        · rw [hrec] at h
          simp only [Option.some.injEq] at h
          subst h
          simpa [findNameIn, hkk] using ih r2 hrec

theorem findNameIn_scv_other (k v : String) (hk : k ≠ "name") : ∀ (l l2 : List Sexp),
    setChildValueAux l k v = some l2 → findNameIn l2 = findNameIn l := by
  intro l
  induction l with
  | nil => intro l2 h; simp [setChildValueAux] at h
  | cons item rest ih =>
    intro l2 h
    rcases item with a | (_ | ⟨kk, _ | ⟨x, tail⟩⟩)
    · simp only [setChildValueAux] at h
      rcases hrec : setChildValueAux rest k v with _ | r2
      · rw [hrec] at h
        simp at h
      · rw [hrec] at h
        simp only [Option.some.injEq] at h
        subst h
        simpa [findNameIn] using ih r2 hrec
    · simp only [setChildValueAux] at h
      rcases hrec : setChildValueAux rest k v with _ | r2
      · rw [hrec] at h
        simp at h
      · rw [hrec] at h
        simp only [Option.some.injEq] at h
        subst h
        simpa [findNameIn] using ih r2 hrec
    · simp only [setChildValueAux] at h
      rcases hrec : setChildValueAux rest k v with _ | r2
      · rw [hrec] at h
        simp at h
      · rw [hrec] at h
        simp only [Option.some.injEq] at h
        subst h
        simpa [findNameIn] using ih r2 hrec
    · by_cases hkk : atomValue kk = some k
      · have hkn : ¬ atomValue kk = some "name" := by
          intro hx
          rw [hkk] at hx
          exact hk (Option.some.inj hx)
        simp only [setChildValueAux, if_pos hkk, Option.some.injEq] at h
        subst h
        simp [findNameIn, hkn]
      · simp only [setChildValueAux, if_neg hkk] at h
        rcases hrec : setChildValueAux rest k v with _ | r2
        · rw [hrec] at h
          simp at h
        · rw [hrec] at h
          simp only [Option.some.injEq] at h
          subst h
          by_cases hkn : atomValue kk = some "name"
          · simp [findNameIn, hkn]
          · simpa [findNameIn, hkn] using ih r2 hrec

theorem findNameIn_append_some (m : List Sexp) (s : String) : ∀ (l : List Sexp),
    findNameIn l = some s → findNameIn (l ++ m) = some s := by
  intro l
  induction l with
  | nil => intro h; simp [findNameIn] at h
  | cons item rest ih =>
    intro h
    rcases item with a | (_ | ⟨kk, _ | ⟨x, tail⟩⟩)
    · simp only [findNameIn] at h
      simpa [findNameIn] using ih h
    · simp only [findNameIn] at h
      simpa [findNameIn] using ih h
    · simp only [findNameIn] at h
      simpa [findNameIn] using ih h
    · by_cases hkk : atomValue kk = some "name"
      · simp only [findNameIn, if_pos hkk] at h
        simp only [List.cons_append, findNameIn, if_pos hkk]
        exact h
      · simp only [findNameIn, if_neg hkk] at h
        simp only [List.cons_append, findNameIn, if_neg hkk]
        exact ih h

theorem findNameIn_push_name (v : String) : ∀ (l : List Sexp),
    setChildValueAux l "name" v = none →
    findNameIn (l ++ [pairEntry "name" v]) = some v := by
  intro l
  induction l with
  | nil =>
    intro _
    simp [findNameIn, pairEntry, atomValue]
  | cons item rest ih =>
    intro h
    rcases item with a | (_ | ⟨kk, _ | ⟨x, tail⟩⟩)
    · simp only [setChildValueAux] at h
      rcases hrec : setChildValueAux rest "name" v with _ | r2
      · simpa [findNameIn] using ih hrec
      · rw [hrec] at h
        simp at h
    · simp only [setChildValueAux] at h
      rcases hrec : setChildValueAux rest "name" v with _ | r2
      · simpa [findNameIn] using ih hrec
      · rw [hrec] at h
        simp at h
    · simp only [setChildValueAux] at h
      rcases hrec : setChildValueAux rest "name" v with _ | r2
      · simpa [findNameIn] using ih hrec
      · rw [hrec] at h
        simp at h
    · by_cases hkk : atomValue kk = some "name"
      · simp only [setChildValueAux, if_pos hkk] at h
        simp at h
      · simp only [setChildValueAux, if_neg hkk] at h
        rcases hrec : setChildValueAux rest "name" v with _ | r2
        · simpa [findNameIn, hkk] using ih hrec
        · rw [hrec] at h
          simp at h

theorem findNameIn_canon : ∀ (l : List Sexp), findNameIn (l.map canon) = findNameIn l := by
  intro l
  induction l with
  | nil => rfl
  | cons item rest ih =>
    rcases item with a | (_ | ⟨kk, _ | ⟨x, tail⟩⟩)
    · rw [List.map_cons, canon_atom]
      simpa [findNameIn] using ih
    · rw [List.map_cons, canon_list, List.map_nil]
      simpa [findNameIn] using ih
    · rw [List.map_cons, canon_list, List.map_cons, List.map_nil]
      simpa [findNameIn] using ih
    · rw [List.map_cons, canon_list, List.map_cons, List.map_cons]
      by_cases hkk : atomValue kk = some "name"
      · have hkk2 : atomValue (canon kk) = some "name" := by
          rw [atomValue_canon]
          exact hkk
        simp [findNameIn, hkk, hkk2, atomValue_canon]
      · have hkk2 : ¬ atomValue (canon kk) = some "name" := by
          rw [atomValue_canon]
          exact hkk
        simpa [findNameIn, hkk, hkk2] using ih

theorem libName_canon (e : Sexp) : libName (canon e) = libName e := by
  rcases e with a | (_ | ⟨f, rest⟩)
  · rw [canon_atom]
    rfl
  · rw [canon_list, List.map_nil]
  · rw [canon_list, List.map_cons]
    by_cases hf : atomValue f = some "lib"
    · have hf2 : atomValue (canon f) = some "lib" := by
        rw [atomValue_canon]
        exact hf
      simp [libName, hf, hf2, findNameIn_canon]
    · have hf2 : ¬ atomValue (canon f) = some "lib" := by
        rw [atomValue_canon]
        exact hf
      simp [libName, hf, hf2]

theorem libName_of_atomValue (f : Sexp) (s : String) (h : atomValue f = some s) :
    libName f = .ok none := by
  rcases f with a | items
  · rfl
  · simp [atomValue] at h

/-! One set_child_value pass and the five-pass update_lib normalisation. -/

theorem setChildValue_name (f : Sexp) (r : List Sexp) (v : String) :
    ∃ r1, setChildValue (f :: r) "name" v = f :: r1 ∧
      setChildValueAux r1 "name" v = some r1 ∧
      findNameIn r1 = some v := by
  rcases hrec : setChildValueAux r "name" v with _ | r1
  · exact ⟨r ++ [pairEntry "name" v], by simp [setChildValue, hrec],
      scv_aux_push _ _ r hrec, findNameIn_push_name v r hrec⟩
  · exact ⟨r1, by simp [setChildValue, hrec], scv_aux_self _ _ r r1 hrec,
      findNameIn_scv_name v r r1 hrec⟩

theorem setChildValue_step (f : Sexp) (r : List Sexp) (k v : String) :
    ∃ r2, setChildValue (f :: r) k v = f :: r2 ∧
      setChildValueAux r2 k v = some r2 ∧
      (∀ k0 v0, k0 ≠ k → setChildValueAux r k0 v0 = some r →
        setChildValueAux r2 k0 v0 = some r2) ∧
      (∀ s, findNameIn r = some s → k ≠ "name" → findNameIn r2 = some s) := by
  rcases hrec : setChildValueAux r k v with _ | r1
  · refine ⟨r ++ [pairEntry k v], by simp [setChildValue, hrec],
      scv_aux_push k v r hrec, ?_, ?_⟩
    · intro k0 v0 _ hfix0
      exact scv_aux_append k0 v0 r r [pairEntry k v] hfix0
    · intro s hs _
      exact findNameIn_append_some _ s r hs
  · refine ⟨r1, by simp [setChildValue, hrec], scv_aux_self k v r r1 hrec, ?_, ?_⟩
    · intro k0 v0 hne hfix0
      exact scv_aux_other k0 v0 k v hne r r1 hfix0 hrec
    · intro s hs hne
      rw [findNameIn_scv_other k v hne r r1 hrec]
      exact hs

theorem updateLib_char (fe : Sexp) (re : List Sexp) (name uri : String) :
    ∃ r5, updateLib (.list (fe :: re)) name uri = .list (fe :: r5) ∧
      findNameIn r5 = some name ∧
      updateLib (.list (canon fe :: r5.map canon)) name uri =
        .list (canon fe :: r5.map canon) := by
  obtain ⟨r1, e1, fix1, fn1⟩ := setChildValue_name fe re name
  obtain ⟨r2, e2, fix2, pres2, fnp2⟩ := setChildValue_step fe r1 "type" "KiCad"
  obtain ⟨r3, e3, fix3, pres3, fnp3⟩ := setChildValue_step fe r2 "uri" uri
  obtain ⟨r4, e4, fix4, pres4, fnp4⟩ := setChildValue_step fe r3 "options" ""
  obtain ⟨r5, e5, fix5, pres5, fnp5⟩ := setChildValue_step fe r4 "descr" ""
  have fx1_2 : setChildValueAux r2 "name" name = some r2 :=
    pres2 "name" name (by decide) fix1
  have fx1_3 := pres3 "name" name (by decide) fx1_2
  have fx1_4 := pres4 "name" name (by decide) fx1_3
  have fx1_5 := pres5 "name" name (by decide) fx1_4
  have fx2_3 := pres3 "type" "KiCad" (by decide) fix2
  have fx2_4 := pres4 "type" "KiCad" (by decide) fx2_3
  have fx2_5 := pres5 "type" "KiCad" (by decide) fx2_4
  have fx3_4 := pres4 "uri" uri (by decide) fix3
  have fx3_5 := pres5 "uri" uri (by decide) fx3_4
  have fx4_5 := pres5 "options" "" (by decide) fix4
  have fn5 : findNameIn r5 = some name :=
    fnp5 name (fnp4 name (fnp3 name (fnp2 name fn1 (by decide)) (by decide))
      (by decide)) (by decide)
  refine ⟨r5, ?_, fn5, ?_⟩
  · simp only [updateLib]
    rw [e1, e2, e3, e4, e5]
  · have c1 := scv_aux_canon "name" name r5 fx1_5
    have c2 := scv_aux_canon "type" "KiCad" r5 fx2_5
    have c3 := scv_aux_canon "uri" uri r5 fx3_5
    have c4 := scv_aux_canon "options" "" r5 fx4_5
    have c5 := scv_aux_canon "descr" "" r5 fix5
    simp only [updateLib]
    rw [setChildValue_fixed _ _ _ _ c1, setChildValue_fixed _ _ _ _ c2,
      setChildValue_fixed _ _ _ _ c3, setChildValue_fixed _ _ _ _ c4,
      setChildValue_fixed _ _ _ _ c5]

theorem libName_ok_some_shape (e : Sexp) (s : String)
    (h : libName e = .ok (some s)) :
    ∃ fe re, e = .list (fe :: re) ∧ atomValue fe = some "lib" ∧
      findNameIn re = some s := by
  rcases e with a | (_ | ⟨fe, re⟩)
  · simp [libName] at h
  · simp [libName] at h
  · by_cases hf : atomValue fe = some "lib"
    · simp only [libName, if_pos hf, Except.ok.injEq] at h
      exact ⟨fe, re, rfl, hf, h⟩
    · simp [libName, if_neg hf] at h

/-! Presence of a version entry, and how it survives the update. -/

/-- A root child that the ensure_version scan accepts as a version entry. -/
def isVersionChild : Sexp → Bool
  | .list (k :: _ :: _) => atomValue k = some "version"
  | _ => false

theorem hasVersionEntry_eq_any : ∀ (l : List Sexp),
    hasVersionEntry l = l.any isVersionChild := by
  intro l
  induction l with
  | nil => rfl
  | cons item rest ih =>
    rcases item with a | (_ | ⟨kk, _ | ⟨x, tail⟩⟩)
    · simpa [hasVersionEntry, isVersionChild] using ih
    · simpa [hasVersionEntry, isVersionChild] using ih
    · simpa [hasVersionEntry, isVersionChild] using ih
    · by_cases hkk : atomValue kk = some "version"
      · simp [hasVersionEntry, isVersionChild, hkk]
      · simpa [hasVersionEntry, isVersionChild, hkk] using ih

theorem isVersionChild_canon (e : Sexp) :
    isVersionChild (canon e) = isVersionChild e := by
  rcases e with a | (_ | ⟨kk, _ | ⟨x, tail⟩⟩)
  · rw [canon_atom]
    rfl
  · rw [canon_list, List.map_nil]
  · rw [canon_list, List.map_cons, List.map_nil]
    rfl
  · rw [canon_list, List.map_cons, List.map_cons]
    simp [isVersionChild, atomValue_canon]

theorem hasVersionEntry_canon (l : List Sexp) :
    hasVersionEntry (l.map canon) = hasVersionEntry l := by
  rw [hasVersionEntry_eq_any, hasVersionEntry_eq_any]
  induction l with
  | nil => rfl
  | cons x xs ih => simp [isVersionChild_canon, ih]

theorem isVersionChild_of_lib (fe : Sexp) (re : List Sexp)
    (hfe : atomValue fe = some "lib") :
    isVersionChild (.list (fe :: re)) = false := by
  rcases re with _ | ⟨x, t⟩
  · rfl
  · simp [isVersionChild, hfe]

theorem hve_mid (pre post : List Sexp) (e e' : Sexp)
    (h : hasVersionEntry (pre ++ e :: post) = true)
    (hv : isVersionChild e = false) :
    hasVersionEntry (pre ++ e' :: post) = true := by
  rw [hasVersionEntry_eq_any, List.any_append, List.any_cons] at h ⊢
  rw [hv] at h
  cases hpre : pre.any isVersionChild
  · rw [hpre] at h
    simp only [Bool.false_or] at h
    simp [h]
  · simp

theorem hve_append_left (l m : List Sexp) (h : hasVersionEntry l = true) :
    hasVersionEntry (l ++ m) = true := by
  rw [hasVersionEntry_eq_any, List.any_append]
  rw [hasVersionEntry_eq_any] at h
  simp [h]

theorem ensureVersion_ok_char (t0 t1 : Sexp) (root : String)
    (h : ensureVersion t0 = .ok t1) (hr : matchesRoot t0 root = true) :
    ∃ f rest1, t1 = .list (f :: rest1) ∧ atomValue f = some root ∧
      hasVersionEntry rest1 = true := by
  rcases t0 with a | (_ | ⟨f, rest⟩)
  · simp [ensureVersion] at h
  · simp [matchesRoot] at hr
  · have hf : atomValue f = some root := by
      simpa [matchesRoot] using hr
    simp only [ensureVersion, List.drop_succ_cons, List.drop_zero] at h
    rcases hvb : hasVersionEntry rest with _ | _
    · rw [hvb] at h
      simp only [Bool.false_eq_true, if_false, Except.ok.injEq] at h
      refine ⟨f, versionEntry :: rest, h.symm, hf, ?_⟩
      simp [hasVersionEntry, versionEntry, atomValue]
    · rw [hvb] at h
      simp only [if_true, Except.ok.injEq] at h
      exact ⟨f, rest, h.symm, hf, hvb⟩

theorem ensureVersion_fixed (f : Sexp) (rest : List Sexp)
    (h : hasVersionEntry rest = true) :
    ensureVersion (.list (f :: rest)) = .ok (.list (f :: rest)) := by
  simp only [ensureVersion, List.drop_succ_cons, List.drop_zero, h, if_true]

/-! Decomposition of the ensure_lib_entry scan. -/

theorem elea_ok_some (name uri : String) : ∀ (l l2 : List Sexp),
    ensureLibEntryAux l name uri = .ok (some l2) →
    ∃ pre e post, l = pre ++ e :: post ∧
      l2 = pre ++ updateLib e name uri :: post ∧
      (∀ x ∈ pre, ∃ r, libName x = .ok r ∧ r ≠ some name) ∧
      libName e = .ok (some name) := by
  intro l
  induction l with
  | nil => intro l2 h; simp [ensureLibEntryAux] at h
  | cons item rest ih =>
    intro l2 h
    simp only [ensureLibEntryAux] at h
    rcases hl : libName item with e0 | r
    · simp only [hl] at h
      simp at h
    · simp only [hl] at h
      by_cases hr : r = some name
      · subst hr
        rw [if_pos rfl] at h
        simp only [Except.ok.injEq, Option.some.injEq] at h
        subst h
        exact ⟨[], item, rest, by simp, by simp, by simp, hl⟩
      · rw [if_neg hr] at h
        rcases hrec : ensureLibEntryAux rest name uri with e0 | val
        · simp only [hrec] at h
          simp at h
        · rcases val with _ | rest2
          · simp only [hrec] at h
            simp at h
          · simp only [hrec] at h
            simp only [Except.ok.injEq, Option.some.injEq] at h
            subst h
            obtain ⟨pre, e, post, hsplit, hres, hpre, he⟩ := ih rest2 hrec
            refine ⟨item :: pre, e, post, ?_, ?_, ?_, he⟩
            · rw [List.cons_append, hsplit]
            · rw [List.cons_append, hres]
            · intro x hx
              rcases List.mem_cons.mp hx with h1 | h2
              · exact h1 ▸ ⟨r, hl, hr⟩
              · exact hpre x h2

theorem elea_ok_none (name uri : String) : ∀ (l : List Sexp),
    ensureLibEntryAux l name uri = .ok none →
    ∀ x ∈ l, ∃ r, libName x = .ok r ∧ r ≠ some name := by
  intro l
  induction l with
  | nil => intro _ x hx; exact absurd hx (List.not_mem_nil x)
  | cons item rest ih =>
    intro h x hx
    simp only [ensureLibEntryAux] at h
    rcases hl : libName item with e0 | r
    · simp only [hl] at h
      simp at h
    · simp only [hl] at h
      by_cases hr : r = some name
      · subst hr
        rw [if_pos rfl] at h
        simp at h
      · rw [if_neg hr] at h
        rcases hrec : ensureLibEntryAux rest name uri with e0 | val
        · simp only [hrec] at h
          simp at h
        · rcases val with _ | rest2
          · rcases List.mem_cons.mp hx with h1 | h2
            · exact h1 ▸ ⟨r, hl, hr⟩
            · exact ih hrec x h2
          · simp only [hrec] at h
            simp at h

theorem elea_found (name uri : String) : ∀ (pre : List Sexp) (e : Sexp)
    (post : List Sexp),
    (∀ x ∈ pre, ∃ r, libName x = .ok r ∧ r ≠ some name) →
    libName e = .ok (some name) →
    ensureLibEntryAux (pre ++ e :: post) name uri =
      .ok (some (pre ++ updateLib e name uri :: post)) := by
  intro pre
  induction pre with
  | nil =>
    intro e post _ he
    simp [List.nil_append, ensureLibEntryAux, he]
  | cons x pre2 ih =>
    intro e post hpre he
    obtain ⟨r, hx, hr⟩ := hpre x (by simp)
    simp only [List.cons_append, ensureLibEntryAux, hx, if_neg hr, List.append_eq,
      ih e post (fun y hy => hpre y (List.mem_cons_of_mem _ hy)) he]

/-! The freshly appended entry is already in normal form. -/

theorem libName_buildLibEntry (name uri : String) :
    libName (buildLibEntry name uri) = .ok (some name) := by
  simp [libName, buildLibEntry, findNameIn, atomValue]

theorem canon_buildLibEntry (name uri : String) :
    canon (buildLibEntry name uri) = buildLibEntry name uri := by
  have h1 : needsQuotes "lib" = false := by decide
  have h2 : needsQuotes "name" = false := by decide
  have h3 : needsQuotes "type" = false := by decide
  have h4 : needsQuotes "uri" = false := by decide
  have h5 : needsQuotes "options" = false := by decide
  have h6 : needsQuotes "descr" = false := by decide
  simp [buildLibEntry, canon_list, canon_atom, canonAtom, h1, h2, h3, h4, h5, h6]

theorem updateLib_buildLibEntry (name uri : String) :
    updateLib (buildLibEntry name uri) name uri = buildLibEntry name uri := by
  simp [updateLib, buildLibEntry, setChildValue, setChildValueAux, atomValue,
    pairEntry]

/-! Assembly of the two table-updater runs. -/

theorem ensureTableText_some_ok (kind : TableKind) (content name uri : String)
    (t t1 t2 : Sexp) (hp : parseTable content kind = .ok t)
    (hv : ensureVersion t = .ok t1) (he : ensureLibEntry t1 name uri = .ok t2) :
    ensureTableText kind (some content) name uri =
      .ok (toStringPrettyWithIndent t2 "  ") := by
  simp only [ensureTableText, hp, hv, he]

theorem parseTable_ok_root (content : String) (kind : TableKind) (t : Sexp)
    (h : parseTable content kind = .ok t) :
    matchesRoot t kind.rootName = true := by
  simp only [parseTable] at h
  rcases hp : parseOne content with e0 | s
  · simp only [hp] at h
    simp at h
  · simp only [hp] at h
    by_cases hm : matchesRoot s kind.rootName = true
    · rw [if_pos hm] at h
      simp only [Except.ok.injEq] at h
      exact h ▸ hm
    · rw [if_neg hm] at h
      simp at h

theorem matchesRoot_defaultTable (kind : TableKind) :
    matchesRoot (defaultTable kind) kind.rootName = true := by
  cases kind <;> rfl

theorem run2_core (kind : TableKind) (name uri : String) (f E : Sexp)
    (PRE POST : List Sexp)
    (hf : atomValue f = some kind.rootName)
    (hver : hasVersionEntry (PRE ++ E :: POST) = true)
    (hPRE : ∀ x ∈ PRE, ∃ r, libName x = .ok r ∧ r ≠ some name)
    (hE : libName E = .ok (some name))
    (hEfix : updateLib (canon E) name uri = canon E) :
    ensureTableText kind
        (some (toStringPrettyWithIndent (.list (f :: (PRE ++ E :: POST))) "  "))
        name uri =
      .ok (toStringPrettyWithIndent (.list (f :: (PRE ++ E :: POST))) "  ") := by
  have hct2 : canon (Sexp.list (f :: (PRE ++ E :: POST))) =
      .list (canon f :: (PRE.map canon ++ canon E :: POST.map canon)) := by
    rw [canon_list]
    simp [List.map_append, List.map_cons]
  have hps := parse_print_one (Sexp.list (f :: (PRE ++ E :: POST)))
  have hpo : parseOne
      (toStringPrettyWithIndent (.list (f :: (PRE ++ E :: POST))) "  ") =
      .ok (canon (Sexp.list (f :: (PRE ++ E :: POST)))) := by
    simp only [parseOne, hps]
  have hmr : matchesRoot (canon (Sexp.list (f :: (PRE ++ E :: POST))))
      kind.rootName = true := by
    rw [hct2]
    simp [matchesRoot, atomValue_canon, hf]
  have hpt : parseTable
      (toStringPrettyWithIndent (.list (f :: (PRE ++ E :: POST))) "  ") kind =
      .ok (canon (Sexp.list (f :: (PRE ++ E :: POST)))) := by
    simp only [parseTable, hpo]
    rw [if_pos hmr]
  have hmapped : (PRE.map canon ++ canon E :: POST.map canon) =
      (PRE ++ E :: POST).map canon := by
    simp [List.map_append]
  have hv2 : ensureVersion (canon (Sexp.list (f :: (PRE ++ E :: POST)))) =
      .ok (canon (Sexp.list (f :: (PRE ++ E :: POST)))) := by
    rw [hct2]
    apply ensureVersion_fixed
    rw [hmapped, hasVersionEntry_canon]
    exact hver
  have hE2 : libName (canon E) = .ok (some name) := by
    rw [libName_canon]
    exact hE
  have hpre2 : ∀ x ∈ canon f :: PRE.map canon,
      ∃ r, libName x = .ok r ∧ r ≠ some name := by
    intro x hx
    rcases List.mem_cons.mp hx with h1 | h2
    · subst h1
      refine ⟨none, ?_, by simp⟩
      rw [libName_canon]
      exact libName_of_atomValue f _ hf
    · obtain ⟨y, hy, hyx⟩ := List.mem_map.mp h2
      obtain ⟨r, hly, hr⟩ := hPRE y hy
      refine ⟨r, ?_, hr⟩
      rw [← hyx, libName_canon]
      exact hly
  have hfound := elea_found name uri (canon f :: PRE.map canon) (canon E)
    (POST.map canon) hpre2 hE2
  rw [hEfix] at hfound
  simp only [List.cons_append] at hfound
  have he2 : ensureLibEntry (canon (Sexp.list (f :: (PRE ++ E :: POST)))) name uri =
      .ok (canon (Sexp.list (f :: (PRE ++ E :: POST)))) := by
    rw [hct2]
    simp only [ensureLibEntry, hfound]
  have hfinal := ensureTableText_some_ok kind
    (toStringPrettyWithIndent (.list (f :: (PRE ++ E :: POST))) "  ") name uri
    _ _ _ hpt hv2 he2
  rw [hfinal, toStringPretty_canon]

theorem run1_decomp (kind : TableKind) (name uri out : String) (t0 t1 t2 : Sexp)
    (hroot : matchesRoot t0 kind.rootName = true)
    (hv : ensureVersion t0 = .ok t1)
    (he : ensureLibEntry t1 name uri = .ok t2)
    (hout : toStringPrettyWithIndent t2 "  " = out) :
    ensureTableText kind (some out) name uri = .ok out := by
  subst hout
  obtain ⟨f, rest1, ht1, hf, hver⟩ :=
    ensureVersion_ok_char t0 t1 kind.rootName hv hroot
  subst ht1
  have hlibf : libName f = .ok none := libName_of_atomValue f _ hf
  simp only [ensureLibEntry] at he
  rcases haux : ensureLibEntryAux (f :: rest1) name uri with e0 | val
  · simp only [haux] at he
    simp at he
  · rcases val with _ | items2
    · simp only [haux] at he
      simp only [Except.ok.injEq] at he
      subst he
      have hall := elea_ok_none name uri (f :: rest1) haux
      have hcons : (f :: rest1) ++ [buildLibEntry name uri] =
          f :: (rest1 ++ buildLibEntry name uri :: []) := by simp
      rw [hcons]
      exact run2_core kind name uri f (buildLibEntry name uri) rest1 [] hf
        (hve_append_left rest1 _ hver)
        (fun x hx => hall x (List.mem_cons_of_mem _ hx))
        (libName_buildLibEntry name uri)
        (by rw [canon_buildLibEntry]; exact updateLib_buildLibEntry name uri)
    · simp only [haux] at he
      simp only [Except.ok.injEq] at he
      subst he
      obtain ⟨pre, e, post, hsplit, hres, hpre, hename⟩ :=
        elea_ok_some name uri (f :: rest1) items2 haux
      rcases pre with _ | ⟨p0, pre2⟩
      · simp only [List.nil_append, List.cons.injEq] at hsplit
        rw [← hsplit.1, hlibf] at hename
        simp at hename
      · simp only [List.cons_append, List.cons.injEq] at hsplit
        obtain ⟨hfp, hrest⟩ := hsplit
        subst hfp
        obtain ⟨fe, re, hee, hfe, hfnre⟩ := libName_ok_some_shape e name hename
        subst hee
        obtain ⟨r5, hupd, hfn5, hfix2⟩ := updateLib_char fe re name uri
        rw [hres, List.cons_append, hupd]
        have hEn : libName (.list (fe :: r5)) = .ok (some name) := by
          simp only [libName, if_pos hfe, hfn5]
        have hEfix : updateLib (canon (.list (fe :: r5))) name uri =
            canon (.list (fe :: r5)) := by
          rw [canon_list, List.map_cons]
          exact hfix2
        have hver2 : hasVersionEntry (pre2 ++ Sexp.list (fe :: r5) :: post) = true := by
          apply hve_mid pre2 post (Sexp.list (fe :: re)) (Sexp.list (fe :: r5))
          · rw [← hrest]
            exact hver
          · exact isVersionChild_of_lib fe re hfe
        exact run2_core kind name uri f (Sexp.list (fe :: r5)) pre2 post hf hver2
          (fun x hx => hpre x (List.mem_cons_of_mem _ hx)) hEn hEfix

/-- C8: running the table updater a second time on the file produced by a
first successful run, with the same library name and uri, writes back
exactly the same bytes: the second run parses the first run's output, finds
the entry by name, and every normalisation step is a fixpoint. The statement
covers both table kinds through the kind parameter. -/
theorem c8_table_idempotent (kind : TableKind) (existing : Option String)
    (name uri out : String)
    (h : ensureTableText kind existing name uri = .ok out) :
    ensureTableText kind (some out) name uri = .ok out := by
  rcases existing with _ | content
  · simp only [ensureTableText] at h
    rcases hv : ensureVersion (defaultTable kind) with e0 | t1
    · simp only [hv] at h
      simp at h
    · simp only [hv] at h
      rcases he : ensureLibEntry t1 name uri with e0 | t2
      · simp only [he] at h
        simp at h
      · simp only [he] at h
        simp only [Except.ok.injEq] at h
        exact run1_decomp kind name uri out (defaultTable kind) t1 t2
          (matchesRoot_defaultTable kind) hv he h
  · simp only [ensureTableText] at h
    rcases hp : parseTable content kind with e0 | t0
    · simp only [hp] at h
      simp at h
    · simp only [hp] at h
      rcases hv : ensureVersion t0 with e0 | t1
      · simp only [hv] at h
        simp at h
      · simp only [hv] at h
        rcases he : ensureLibEntry t1 name uri with e0 | t2
        · simp only [he] at h
          simp at h
        · simp only [he] at h
          simp only [Except.ok.injEq] at h
          exact run1_decomp kind name uri out t0 t1 t2
            (parseTable_ok_root content kind t0 hp) hv he h

/-- Witness for c8_table_idempotent: a fresh symbol table built for library
name a and uri b is reproduced byte for byte by a second run. -/
theorem c8_table_idempotent_witness :
    ensureTableText .symbol
      (some "(sym_lib_table\n  (version 7)\n  (lib\n    (name \"a\")\n    (type \"KiCad\")\n    (uri \"b\")\n    (options \"\")\n    (descr \"\")\n  )\n)\n")
      "a" "b" =
    .ok "(sym_lib_table\n  (version 7)\n  (lib\n    (name \"a\")\n    (type \"KiCad\")\n    (uri \"b\")\n    (options \"\")\n    (descr \"\")\n  )\n)\n" := by
  apply c8_table_idempotent .symbol none "a" "b"
  have hp1 : ∀ ind : Nat, writePretty
      (Sexp.list [Sexp.atom ⟨"name", false⟩, Sexp.atom ⟨"a", true⟩]) ind "  " =
      "(name \"a\")" := by
    intro ind
    rw [writePretty_list,
      writeListP_cons_all (Sexp.atom ⟨"name", false⟩) [Sexp.atom ⟨"a", true⟩]
        ind "  " rfl,
      writePretty_atom, writeInline_cons, writePretty_atom, writeInline_nil]
    rfl
  have hp2 : ∀ ind : Nat, writePretty
      (Sexp.list [Sexp.atom ⟨"type", false⟩, Sexp.atom ⟨"KiCad", true⟩]) ind "  " =
      "(type \"KiCad\")" := by
    intro ind
    rw [writePretty_list,
      writeListP_cons_all (Sexp.atom ⟨"type", false⟩) [Sexp.atom ⟨"KiCad", true⟩]
        ind "  " rfl,
      writePretty_atom, writeInline_cons, writePretty_atom, writeInline_nil]
    rfl
  have hp3 : ∀ ind : Nat, writePretty
      (Sexp.list [Sexp.atom ⟨"uri", false⟩, Sexp.atom ⟨"b", true⟩]) ind "  " =
      "(uri \"b\")" := by
    intro ind
    rw [writePretty_list,
      writeListP_cons_all (Sexp.atom ⟨"uri", false⟩) [Sexp.atom ⟨"b", true⟩]
        ind "  " rfl,
      writePretty_atom, writeInline_cons, writePretty_atom, writeInline_nil]
    rfl
  have hp4 : ∀ ind : Nat, writePretty
      (Sexp.list [Sexp.atom ⟨"options", false⟩, Sexp.atom ⟨"", true⟩]) ind "  " =
      "(options \"\")" := by
    intro ind
    rw [writePretty_list,
      writeListP_cons_all (Sexp.atom ⟨"options", false⟩) [Sexp.atom ⟨"", true⟩]
        ind "  " rfl,
      writePretty_atom, writeInline_cons, writePretty_atom, writeInline_nil]
    rfl
  have hp5 : ∀ ind : Nat, writePretty
      (Sexp.list [Sexp.atom ⟨"descr", false⟩, Sexp.atom ⟨"", true⟩]) ind "  " =
      "(descr \"\")" := by
    intro ind
    rw [writePretty_list,
      writeListP_cons_all (Sexp.atom ⟨"descr", false⟩) [Sexp.atom ⟨"", true⟩]
        ind "  " rfl,
      writePretty_atom, writeInline_cons, writePretty_atom, writeInline_nil]
    rfl
  have hV : ∀ ind : Nat, writePretty
      (Sexp.list [Sexp.atom ⟨"version", false⟩, Sexp.atom ⟨"7", false⟩]) ind "  " =
      "(version 7)" := by
    intro ind
    rw [writePretty_list,
      writeListP_cons_all (Sexp.atom ⟨"version", false⟩) [Sexp.atom ⟨"7", false⟩]
        ind "  " rfl,
      writePretty_atom, writeInline_cons, writePretty_atom, writeInline_nil]
    rfl
  have hL : writePretty
      (Sexp.list [Sexp.atom ⟨"lib", false⟩,
        Sexp.list [Sexp.atom ⟨"name", false⟩, Sexp.atom ⟨"a", true⟩],
        Sexp.list [Sexp.atom ⟨"type", false⟩, Sexp.atom ⟨"KiCad", true⟩],
        Sexp.list [Sexp.atom ⟨"uri", false⟩, Sexp.atom ⟨"b", true⟩],
        Sexp.list [Sexp.atom ⟨"options", false⟩, Sexp.atom ⟨"", true⟩],
        Sexp.list [Sexp.atom ⟨"descr", false⟩, Sexp.atom ⟨"", true⟩]]) (0 + 1) "  " =
      "(lib\n    (name \"a\")\n    (type \"KiCad\")\n    (uri \"b\")\n    (options \"\")\n    (descr \"\")\n  )" := by
    rw [writePretty_list,
      writeListP_cons_multi (Sexp.atom ⟨"lib", false⟩)
        [Sexp.list [Sexp.atom ⟨"name", false⟩, Sexp.atom ⟨"a", true⟩],
         Sexp.list [Sexp.atom ⟨"type", false⟩, Sexp.atom ⟨"KiCad", true⟩],
         Sexp.list [Sexp.atom ⟨"uri", false⟩, Sexp.atom ⟨"b", true⟩],
         Sexp.list [Sexp.atom ⟨"options", false⟩, Sexp.atom ⟨"", true⟩],
         Sexp.list [Sexp.atom ⟨"descr", false⟩, Sexp.atom ⟨"", true⟩]]
        (0 + 1) "  " rfl,
      writePretty_atom, writeMulti_cons, hp1, writeMulti_cons, hp2,
      writeMulti_cons, hp3, writeMulti_cons, hp4, writeMulti_cons, hp5,
      writeMulti_nil]
    rfl
  have hT : writePretty
      (Sexp.list [Sexp.atom ⟨"sym_lib_table", false⟩,
        Sexp.list [Sexp.atom ⟨"version", false⟩, Sexp.atom ⟨"7", false⟩],
        Sexp.list [Sexp.atom ⟨"lib", false⟩,
          Sexp.list [Sexp.atom ⟨"name", false⟩, Sexp.atom ⟨"a", true⟩],
          Sexp.list [Sexp.atom ⟨"type", false⟩, Sexp.atom ⟨"KiCad", true⟩],
          Sexp.list [Sexp.atom ⟨"uri", false⟩, Sexp.atom ⟨"b", true⟩],
          Sexp.list [Sexp.atom ⟨"options", false⟩, Sexp.atom ⟨"", true⟩],
          Sexp.list [Sexp.atom ⟨"descr", false⟩, Sexp.atom ⟨"", true⟩]]]) 0 "  " =
      "(sym_lib_table\n  (version 7)\n  (lib\n    (name \"a\")\n    (type \"KiCad\")\n    (uri \"b\")\n    (options \"\")\n    (descr \"\")\n  )\n)" := by
    rw [writePretty_list,
      writeListP_cons_multi (Sexp.atom ⟨"sym_lib_table", false⟩)
        [Sexp.list [Sexp.atom ⟨"version", false⟩, Sexp.atom ⟨"7", false⟩],
         Sexp.list [Sexp.atom ⟨"lib", false⟩,
           Sexp.list [Sexp.atom ⟨"name", false⟩, Sexp.atom ⟨"a", true⟩],
           Sexp.list [Sexp.atom ⟨"type", false⟩, Sexp.atom ⟨"KiCad", true⟩],
           Sexp.list [Sexp.atom ⟨"uri", false⟩, Sexp.atom ⟨"b", true⟩],
           Sexp.list [Sexp.atom ⟨"options", false⟩, Sexp.atom ⟨"", true⟩],
           Sexp.list [Sexp.atom ⟨"descr", false⟩, Sexp.atom ⟨"", true⟩]]]
        0 "  " rfl,
      writePretty_atom, writeMulti_cons, hV, writeMulti_cons, hL, writeMulti_nil]
    rfl
  have hv : ensureVersion (defaultTable .symbol) = .ok (defaultTable .symbol) := rfl
  have he : ensureLibEntry (defaultTable .symbol) "a" "b" =
      .ok (Sexp.list [Sexp.atom ⟨"sym_lib_table", false⟩,
        Sexp.list [Sexp.atom ⟨"version", false⟩, Sexp.atom ⟨"7", false⟩],
        Sexp.list [Sexp.atom ⟨"lib", false⟩,
          Sexp.list [Sexp.atom ⟨"name", false⟩, Sexp.atom ⟨"a", true⟩],
          Sexp.list [Sexp.atom ⟨"type", false⟩, Sexp.atom ⟨"KiCad", true⟩],
          Sexp.list [Sexp.atom ⟨"uri", false⟩, Sexp.atom ⟨"b", true⟩],
          Sexp.list [Sexp.atom ⟨"options", false⟩, Sexp.atom ⟨"", true⟩],
          Sexp.list [Sexp.atom ⟨"descr", false⟩, Sexp.atom ⟨"", true⟩]]]) := rfl
  simp only [ensureTableText, hv, he]
  rw [toStringPrettyWithIndent, hT]
  rfl
